import Mathlib

/-!
# The reduce task of `mapreduce` (`src/mapreduce/common_reduce.go`)

A shallow embedding of `doReduce` and of the library calls it makes, followed by
theorems about it.

* A Go `string` / `[]byte` is a list of bytes (`GoString`), a byte being a natural
  number below 256.
* `utf8`, `json`, `bufio` hold the parts of the Go standard library that `doReduce`
  calls (`json.Marshal`, `json.Unmarshal`, `bufio.Reader.ReadLine`,
  `bufio.Writer.Write` / `Flush`, `fmt.Fprintln`), written after their Go sources.
* `doReduce` itself is translated statement by statement; it returns a `Run`:
  the events of the execution, the grouping map, the output file and how the call
  ended (normal return, or `log.Fatalf` ending the process), or `none` when the call
  does not end (an opened file whose reads keep failing).
-/

namespace MapReduce

/-- A Go string or byte slice: its bytes in order. -/
abbrev GoString := List Nat

/-! ## `unicode/utf8` -/

namespace utf8

/-- `utf8.RuneError`, U+FFFD. -/
def RuneError : Nat := 0xFFFD

/-- `utf8.RuneSelf`: bytes below it are single-byte runes. -/
def RuneSelf : Nat := 0x80

/-- Low end of the continuation byte range (`locb`). -/
def locb : Nat := 0x80

/-- High end of the continuation byte range (`hicb`). -/
def hicb : Nat := 0xBF

/-- Size in bytes announced by a lead byte (`first[s0] & 7`), `0` for the bytes marked
`xx` (`0x80..0xC1`, `0xF5..0xFF`) and `1` for ASCII. -/
def firstSize (s0 : Nat) : Nat :=
  if s0 < 0x80 then 1
  else if s0 < 0xC2 then 0
  else if s0 < 0xE0 then 2
  else if s0 < 0xF0 then 3
  else if s0 < 0xF5 then 4
  else 0

/-- Accepted range of the second byte after lead byte `s0` (`acceptRanges[first[s0]>>4]`). -/
def acceptRange (s0 : Nat) : Nat × Nat :=
  if s0 = 0xE0 then (0xA0, hicb)
  else if s0 = 0xED then (locb, 0x9F)
  else if s0 = 0xF0 then (0x90, hicb)
  else if s0 = 0xF4 then (locb, 0x8F)
  else (locb, hicb)

/-- Go `utf8.DecodeRune` / `utf8.DecodeRuneInString`: the first rune of `p` and its width
in bytes; `(RuneError, 0)` on empty input and `(RuneError, 1)` on an invalid encoding. -/
def DecodeRune (p : GoString) : Nat × Nat :=
  match p with
  | [] => (RuneError, 0)
  | s0 :: t =>
    if s0 < RuneSelf then (s0, 1)
    else if firstSize s0 = 0 then (RuneError, 1)
    else
      let sz := firstSize s0
      let accept := acceptRange s0
      if p.length < sz then (RuneError, 1)
      else
        match t with
        | [] => (RuneError, 1)
        | s1 :: t1 =>
          if s1 < accept.1 ∨ accept.2 < s1 then (RuneError, 1)
          else if sz ≤ 2 then (((s0 &&& 0x1F) <<< 6) ||| (s1 &&& 0x3F), 2)
          else
            match t1 with
            | [] => (RuneError, 1)
            | s2 :: t2 =>
              if s2 < locb ∨ hicb < s2 then (RuneError, 1)
              else if sz ≤ 3 then
                (((s0 &&& 0x0F) <<< 12) ||| ((s1 &&& 0x3F) <<< 6) ||| (s2 &&& 0x3F), 3)
              else
                match t2 with
                | [] => (RuneError, 1)
                | s3 :: _ =>
                  if s3 < locb ∨ hicb < s3 then (RuneError, 1)
                  else
                    (((s0 &&& 0x07) <<< 18) ||| ((s1 &&& 0x3F) <<< 12) |||
                      ((s2 &&& 0x3F) <<< 6) ||| (s3 &&& 0x3F), 4)

/-- Go `utf8.AppendRune(nil, r)` / `utf8.EncodeRune`: the UTF-8 encoding of rune `r`;
surrogates and values above U+10FFFF are written as U+FFFD. -/
def EncodeRune (r : Nat) : GoString :=
  if r ≤ 0x7F then [r]
  else if r ≤ 0x7FF then [0xC0 ||| (r >>> 6), 0x80 ||| (r &&& 0x3F)]
  else if r < 0xD800 ∨ (0xDFFF < r ∧ r ≤ 0xFFFF) then
    [0xE0 ||| (r >>> 12), 0x80 ||| ((r >>> 6) &&& 0x3F), 0x80 ||| (r &&& 0x3F)]
  else if 0xFFFF < r ∧ r ≤ 0x10FFFF then
    [0xF0 ||| (r >>> 18), 0x80 ||| ((r >>> 12) &&& 0x3F), 0x80 ||| ((r >>> 6) &&& 0x3F),
      0x80 ||| (r &&& 0x3F)]
  else [0xEF, 0xBF, 0xBD]

/-- Go `utf8.Valid` / `utf8.ValidString`: `p` consists entirely of valid UTF-8 encoded
runes. `n` bounds the number of runes (the length of `p` is enough). -/
def validAux : Nat → GoString → Bool
  | _, [] => true
  | 0, _ :: _ => false
  | n + 1, p@(_ :: _) =>
    let d := DecodeRune p
    if d.1 = RuneError ∧ d.2 = 1 then false else validAux n (p.drop d.2)

/-- Go `utf8.ValidString`. -/
def ValidString (p : GoString) : Bool := validAux p.length p

end utf8

/-- Modelled from the spec: the type `KeyValue` is declared outside
`common_reduce.go`; the spec gives it as an ordered pair `(key: string, value: string)`,
and the code uses it as `KeyValue{k, v}` with the fields `kv.Key`, `kv.Value`. -/
structure KeyValue where
  Key : GoString
  Value : GoString
deriving DecidableEq, Repr

/-! ## `encoding/json`, as far as `doReduce` uses it: `Marshal` of a `KeyValue` and
`Unmarshal` into a `*KeyValue` -/

namespace json

/-- The table `hex = "0123456789abcdef"` of encode.go, at index `n`. -/
def hex (n : Nat) : Nat := if n < 10 then 48 + n else 87 + n

/-- The table `htmlSafeSet` of tables.go on ASCII bytes: every byte from space to DEL
except the double quote, backslash, `<`, `>` and `&`. -/
def htmlSafeSet (b : Nat) : Bool :=
  decide (0x20 ≤ b ∧ b < 0x80 ∧ b ≠ 34 ∧ b ≠ 92 ∧ b ≠ 60 ∧ b ≠ 62 ∧ b ≠ 38)

/-- What `appendString` writes for an ASCII byte outside `htmlSafeSet`
(the `switch b` of encode.go). -/
def escapeByte (b : Nat) : GoString :=
  if b = 92 ∨ b = 34 then [92, b]
  else if b = 8 then [92, 98]
  else if b = 12 then [92, 102]
  else if b = 10 then [92, 110]
  else if b = 13 then [92, 114]
  else if b = 9 then [92, 116]
  else [92, 117, 48, 48, hex (b >>> 4), hex (b &&& 0xF)]

/-- What the encoder writes for a byte that does not start a valid UTF-8 rune: U+FFFD,
either as the six-byte escape `\ufffd` (the encoder of encode.go, `raw = false`) or as
the three bytes of the rune itself (`raw = true`). Releases of `encoding/json` differ in
this; both are covered. -/
def replacement (raw : Bool) : GoString :=
  if raw then [0xEF, 0xBF, 0xBD] else [92, 117, 102, 102, 102, 100]

/-- The loop of `appendString(dst, src, escapeHTML = true)` in encode.go, between the two
quotes: safe ASCII bytes and valid multi-byte runes are copied, other ASCII bytes are
escaped, every byte that does not start a valid UTF-8 rune becomes U+FFFD
(`replacement raw`), and U+2028 / U+2029 become `\u2028` / `\u2029`. The second
argument bounds the number of iterations (the length of `src` is enough). -/
def appendStringAux (raw : Bool) : Nat → GoString → GoString
  | _, [] => []
  | 0, _ :: _ => []
  | n + 1, src@(b :: rest) =>
    if b < utf8.RuneSelf then
      if htmlSafeSet b then b :: appendStringAux raw n rest
      else escapeByte b ++ appendStringAux raw n rest
    else
      let d := utf8.DecodeRune (src.take 4)
      if d.1 = utf8.RuneError ∧ d.2 = 1 then
        replacement raw ++ appendStringAux raw n rest
      else if d.1 = 0x2028 ∨ d.1 = 0x2029 then
        [92, 117, 50, 48, 50, hex (d.1 &&& 0xF)] ++ appendStringAux raw n (src.drop d.2)
      else src.take d.2 ++ appendStringAux raw n (src.drop d.2)

/-- Go `appendString` of encode.go with `escapeHTML = true`: the JSON string literal for `src`. -/
def appendString (raw : Bool) (src : GoString) : GoString :=
  34 :: (appendStringAux raw src.length src ++ [34])

/-- Go `json.Marshal(kv)` for a `KeyValue`: the object with the two fields in declaration
order under their Go names. For this type `Marshal` never returns an error. `raw` says
how the encoder writes U+FFFD for invalid UTF-8 (see `replacement`). -/
def Marshal (raw : Bool) (kv : KeyValue) : GoString :=
  [123, 34, 75, 101, 121, 34, 58] ++ appendString raw kv.Key ++
    [44, 34, 86, 97, 108, 117, 101, 34, 58] ++ appendString raw kv.Value ++ [125]

/-- A decoded JSON value. -/
inductive Value where
  | null
  | bool (b : Bool)
  | number
  | string (s : GoString)
  | array (elems : List Value)
  | object (members : List (GoString × Value))

/-- Go `isSpace` of scanner.go. -/
def isSpace (c : Nat) : Bool := decide (c = 32 ∨ c = 9 ∨ c = 13 ∨ c = 10)

/-- Skip JSON white space. -/
def skipSpace : GoString → GoString
  | [] => []
  | c :: rest => if isSpace c then skipSpace rest else c :: rest

/-- An ASCII decimal digit. -/
def isDigit (c : Nat) : Bool := decide (48 ≤ c ∧ c ≤ 57)

/-- An ASCII hexadecimal digit, either case. -/
def isHex (c : Nat) : Bool :=
  decide ((48 ≤ c ∧ c ≤ 57) ∨ (97 ≤ c ∧ c ≤ 102) ∨ (65 ≤ c ∧ c ≤ 70))

/-- Value of a hexadecimal digit. -/
def hexVal (c : Nat) : Nat :=
  if c ≤ 57 then c - 48 else if 97 ≤ c then c - 97 + 10 else c - 65 + 10

/-- Go `getu4` of decode.go: the rune of a `\uXXXX` escape at the start of `s`, `none`
where Go returns `-1`. -/
def getu4 (s : GoString) : Option Nat :=
  match s with
  | 92 :: 117 :: a :: b :: c :: d :: _ =>
    if isHex a ∧ isHex b ∧ isHex c ∧ isHex d then
      some (((hexVal a * 16 + hexVal b) * 16 + hexVal c) * 16 + hexVal d)
    else none
  | _ => none

/-- Go `utf16.IsSurrogate`. -/
def IsSurrogate (r : Nat) : Bool := decide (0xD800 ≤ r ∧ r < 0xE000)

/-- Go `utf16.DecodeRune`: the rune of a surrogate pair, U+FFFD if it is not one. -/
def utf16DecodeRune (r1 r2 : Nat) : Nat :=
  if 0xD800 ≤ r1 ∧ r1 < 0xDC00 ∧ 0xDC00 ≤ r2 ∧ r2 < 0xE000 then
    (((r1 - 0xD800) <<< 10) ||| (r2 - 0xDC00)) + 0x10000
  else utf8.RuneError

/-- The byte a one-letter escape stands for (`stateInStringEsc` of scanner.go and the
`switch s[r]` of `unquoteBytes`), `none` for a letter the scanner rejects. -/
def unescape (e : Nat) : Option Nat :=
  if e = 34 ∨ e = 92 ∨ e = 47 then some e
  else if e = 98 then some 8
  else if e = 102 then some 12
  else if e = 110 then some 10
  else if e = 114 then some 13
  else if e = 116 then some 9
  else none

/-- A string literal after its opening quote: the scanner states `stateInString*`
together with `unquoteBytes`. Returns the decoded string and the input after the closing
quote; `none` on a control character, a bad escape or a missing closing quote. Raw bytes
above ASCII are decoded and re-encoded rune by rune, so invalid UTF-8 comes out as U+FFFD.
The first argument bounds the number of iterations (the length of the input is enough). -/
def parseString : Nat → GoString → GoString → Option (GoString × GoString)
  | 0, _, _ => none
  | fuel + 1, inp, acc =>
    match inp with
    | [] => none
    | c :: rest =>
      if c = 34 then some (acc, rest)
      else if c = 92 then
        match rest with
        | [] => none
        | e :: rest1 =>
          if e = 117 then
            match getu4 inp with
            | none => none
            | some rr =>
              if IsSurrogate rr then
                let dec :=
                  match getu4 (inp.drop 6) with
                  | some rr1 => utf16DecodeRune rr rr1
                  | none => utf8.RuneError
                if dec ≠ utf8.RuneError then
                  parseString fuel (inp.drop 12) (acc ++ utf8.EncodeRune dec)
                else parseString fuel (inp.drop 6) (acc ++ utf8.EncodeRune utf8.RuneError)
              else parseString fuel (inp.drop 6) (acc ++ utf8.EncodeRune rr)
          else
            match unescape e with
            | some b => parseString fuel rest1 (acc ++ [b])
            | none => none
      else if c < 32 then none
      else if c < utf8.RuneSelf then parseString fuel rest (acc ++ [c])
      else
        let d := utf8.DecodeRune inp
        parseString fuel (inp.drop d.2) (acc ++ utf8.EncodeRune d.1)

/-- Skip a run of decimal digits. -/
def skipDigits : GoString → GoString
  | [] => []
  | c :: rest => if isDigit c then skipDigits rest else c :: rest

/-- The optional exponent of a number (`stateE`, `stateESign`, `stateE0`): the input
after it. -/
def numExp (inp : GoString) : Option GoString :=
  match inp with
  | [] => some []
  | c :: r =>
    if c = 101 ∨ c = 69 then
      match r with
      | [] => none
      | s :: r2 =>
        if s = 43 ∨ s = 45 then
          match r2 with
          | [] => none
          | d :: r3 => if isDigit d then some (skipDigits r3) else none
        else if isDigit s then some (skipDigits r2)
        else none
    else some inp

/-- The optional fraction of a number (`stateDot`, `stateDot0`), then the exponent. -/
def numFrac (inp : GoString) : Option GoString :=
  match inp with
  | [] => some []
  | c :: r =>
    if c = 46 then
      match r with
      | [] => none
      | d :: r2 => if isDigit d then numExp (skipDigits r2) else none
    else numExp inp

/-- The integer part of a number (`state0`, `state1`), then fraction and exponent. -/
def numInt (inp : GoString) : Option GoString :=
  match inp with
  | [] => none
  | c :: r =>
    if c = 48 then numFrac r
    else if 49 ≤ c ∧ c ≤ 57 then numFrac (skipDigits r)
    else none

/-- A number literal (`stateNeg` and on): the input after it. -/
def parseNumber (inp : GoString) : Option GoString :=
  match inp with
  | 45 :: r => numInt r
  | _ => numInt inp

/-- The limit `maxNestingDepth` of scanner.go. -/
def maxNestingDepth : Nat := 10000

mutual

/-- One JSON value with leading white space, as the scanner of scanner.go accepts it
(`stateBeginValue`), returned with the input that follows it. The first argument bounds
the recursion (the length of the input plus one is enough), the second is the number
of enclosing arrays and objects. -/
def parseValue : Nat → Nat → GoString → Option (Value × GoString)
  | 0, _, _ => none
  | fuel + 1, depth, inp =>
    match skipSpace inp with
    | [] => none
    | c :: rest =>
      if c = 123 then
        if maxNestingDepth < depth + 1 then none
        else
          match skipSpace rest with
          | 125 :: r => some (Value.object [], r)
          | _ =>
            match parseMembers fuel (depth + 1) rest with
            | some (ms, r) => some (Value.object ms, r)
            | none => none
      else if c = 91 then
        if maxNestingDepth < depth + 1 then none
        else
          match skipSpace rest with
          | 93 :: r => some (Value.array [], r)
          | _ =>
            match parseElements fuel (depth + 1) rest with
            | some (vs, r) => some (Value.array vs, r)
            | none => none
      else if c = 34 then
        match parseString rest.length rest [] with
        | some (s, r) => some (Value.string s, r)
        | none => none
      else if c = 45 ∨ isDigit c then
        match parseNumber (c :: rest) with
        | some r => some (Value.number, r)
        | none => none
      else
        match c :: rest with
        | 116 :: 114 :: 117 :: 101 :: r => some (Value.bool true, r)
        | 102 :: 97 :: 108 :: 115 :: 101 :: r => some (Value.bool false, r)
        | 110 :: 117 :: 108 :: 108 :: r => some (Value.null, r)
        | _ => none

/-- The members of a non-empty object after its opening brace, up to and including
the closing brace (`stateBeginString`, `stateEndValue`). -/
def parseMembers : Nat → Nat → GoString → Option (List (GoString × Value) × GoString)
  | 0, _, _ => none
  | fuel + 1, depth, inp =>
    match skipSpace inp with
    | 34 :: r =>
      match parseString r.length r [] with
      | none => none
      | some (key, r1) =>
        match skipSpace r1 with
        | 58 :: r2 =>
          match parseValue fuel depth r2 with
          | none => none
          | some (v, r3) =>
            match skipSpace r3 with
            | 44 :: r4 =>
              match parseMembers fuel depth r4 with
              | some (ms, r5) => some ((key, v) :: ms, r5)
              | none => none
            | 125 :: r4 => some ([(key, v)], r4)
            | _ => none
        | _ => none
    | _ => none

/-- The elements of a non-empty array after its opening bracket, up to and including
the closing bracket. -/
def parseElements : Nat → Nat → GoString → Option (List Value × GoString)
  | 0, _, _ => none
  | fuel + 1, depth, inp =>
    match parseValue fuel depth inp with
    | none => none
    | some (v, r) =>
      match skipSpace r with
      | 44 :: r1 =>
        match parseElements fuel depth r1 with
        | some (vs, r2) => some (v :: vs, r2)
        | none => none
      | 93 :: r1 => some ([v], r1)
      | _ => none

end

/-- Go `foldRune` of fold.go on the runes that matter for the field names of `KeyValue`:
the Kelvin sign folds to `K` and the long s to `S`, the only non-ASCII runes whose fold
set holds an ASCII letter. Every other non-ASCII rune folds to a non-ASCII rune and is
left as it is (a folded name holding one never equals `KEY` or `VALUE`). -/
def foldRune (r : Nat) : Nat :=
  if r = 0x212A then 75 else if r = 0x17F then 83 else r

/-- Go `foldName` / `appendFoldedName` of fold.go: ASCII letters to upper case, other
runes through `foldRune`. The first argument bounds the iterations. -/
def foldNameAux : Nat → GoString → GoString
  | _, [] => []
  | 0, _ :: _ => []
  | n + 1, inp@(c :: rest) =>
    if c < utf8.RuneSelf then
      (if 97 ≤ c ∧ c ≤ 122 then c - 32 else c) :: foldNameAux n rest
    else
      let d := utf8.DecodeRune inp
      utf8.EncodeRune (foldRune d.1) ++ foldNameAux n (inp.drop d.2)

/-- Go `foldName`. -/
def foldName (name : GoString) : GoString := foldNameAux name.length name

/-- The fields of `KeyValue`. -/
inductive Field where
  | Key
  | Value
deriving DecidableEq, Repr

/-- The struct field an object key addresses in `decodeState.object`: the field of that
exact name (`fields.byExactName`), else the field with the same folded name
(`fields.byFoldedName`), else none (the member is skipped). -/
def lookupField (key : GoString) : Option Field :=
  if key = [75, 101, 121] then some Field.Key
  else if key = [86, 97, 108, 117, 101] then some Field.Value
  else if foldName key = [75, 69, 89] then some Field.Key
  else if foldName key = [86, 65, 76, 85, 69] then some Field.Value
  else none

/-- Storing a JSON value into a Go `string` field (`literalStore`, and `array` / `object`
on a string): a string is stored, `null` leaves the field as it is, anything else is an
`UnmarshalTypeError` (`none`). -/
def storeString (v : Value) (cur : GoString) : Option GoString :=
  match v with
  | Value.string s => some s
  | Value.null => some cur
  | _ => none

/-- The loop of `decodeState.object` over the members of an object decoded into a
`KeyValue`: members are stored in order, a later member overwrites an earlier one, and
an unknown key is skipped. `none` if any store is an `UnmarshalTypeError`. -/
def storeMembers : List (GoString × Value) → KeyValue → Option KeyValue
  | [], kv => some kv
  | (key, v) :: ms, kv =>
    match lookupField key with
    | some Field.Key =>
      match storeString v kv.Key with
      | some s => storeMembers ms { kv with Key := s }
      | none => none
    | some Field.Value =>
      match storeString v kv.Value with
      | some s => storeMembers ms { kv with Value := s }
      | none => none
    | none => storeMembers ms kv

/-- Go `json.Unmarshal(data, &kv)` with `kv` a zero `KeyValue`: `some kv` when it returns
a nil error, `none` when it returns an error. The input must be one JSON value with
nothing but white space around it (`checkValid`); an object fills the struct, `null`
leaves it zero, any other value is an `UnmarshalTypeError`. -/
def Unmarshal (data : GoString) : Option KeyValue :=
  match parseValue (data.length + 1) 0 data with
  | none => none
  | some (v, rest) =>
    if skipSpace rest ≠ [] then none
    else
      match v with
      | Value.object ms => storeMembers ms { Key := [], Value := [] }
      | Value.null => some { Key := [], Value := [] }
      | _ => none

end json

/-! ## `os`: the files `doReduce` touches -/

/-- The errors the I/O calls of `doReduce` can return. -/
inductive Err where
  | nil
  | EOF
  | ErrBufferFull
  | ErrShortWrite
  | ENOSPC
  | EIO
deriving DecidableEq, Repr

/-- The file behind `os.Create(outFile)`: the bytes written to it so far, the number of
bytes the device still takes (`none`: no limit; a write beyond it is cut short and
fails with `ENOSPC`), and whether `Close` reports an error. -/
structure OsFile where
  data : GoString
  room : Option Nat
  closeFails : Bool
deriving DecidableEq, Repr

/-- Go `(*os.File).Write(p)`: the file after the call, the number of bytes written and
the error. -/
def OsFile.Write (f : OsFile) (p : GoString) : OsFile × Nat × Err :=
  match f.room with
  | none => ({ f with data := f.data ++ p }, p.length, Err.nil)
  | some r =>
    if p.length ≤ r then
      ({ f with data := f.data ++ p, room := some (r - p.length) }, p.length, Err.nil)
    else ({ f with data := f.data ++ p.take r, room := some 0 }, r, Err.ENOSPC)

/-- Go `(*os.File).Close()` on the output file. -/
def OsFile.Close (f : OsFile) : Err := if f.closeFails then Err.EIO else Err.nil

/-! ## `bufio` -/

namespace bufio

/-- The constant `defaultBufSize` of bufio.go, the buffer size of `NewReader` and
`NewWriter`. -/
def defaultBufSize : Nat := 4096

/-- A `*bufio.Reader` made by `bufio.NewReader(f)`: the bytes the file still delivers
that no call has returned yet, and what a read of the file returns once they are used
up: `io.EOF` (`fails = false`, a regular file read to its end) or, at every further
read, an error other than `io.EOF` (`fails = true`: a directory, a failing device). The
buffer always holds a prefix of `rest` of at most `defaultBufSize` bytes. -/
structure Reader where
  rest : GoString
  fails : Bool
deriving DecidableEq, Repr

/-- Go `bufio.NewReader(f)` on a file that delivers the given content and then `io.EOF`,
or, if `fails`, then keeps failing. -/
def NewReader (content : GoString) (fails : Bool) : Reader :=
  { rest := content, fails := fails }

/-- The error of a read at the end of the delivered bytes. -/
def Reader.endErr (b : Reader) : Err := if b.fails then Err.EIO else Err.EOF

/-- Go `(*Reader).ReadSlice('\n')`: the bytes up to and including the first newline if
it lies within the next `defaultBufSize` bytes; else the whole buffer with
`ErrBufferFull` if that many bytes remain; else everything that remains with the error
of the read that found no more bytes (`io.EOF`, or the read error of a failing file). -/
def Reader.ReadSlice (b : Reader) : GoString × Err × Reader :=
  let window := b.rest.take defaultBufSize
  let pre := window.takeWhile (fun c => c ≠ 10)
  if pre.length < window.length then
    (pre ++ [10], Err.nil, { b with rest := b.rest.drop (pre.length + 1) })
  else if defaultBufSize ≤ window.length then
    (window, Err.ErrBufferFull, { b with rest := b.rest.drop defaultBufSize })
  else (window, b.endErr, { b with rest := [] })

/-- Go `(*Reader).ReadLine()`: `(line, isPrefix, err)` and the reader after the call.
A line longer than the buffer is returned in pieces, each but the last with
`isPrefix = true`; the end-of-line marker (a newline, or a carriage return and a
newline) is not part of the line; once no byte is left the call returns
`(nil, false, err)` with `err` the error of the read: `io.EOF` at the end of a regular
file, the read error at every call on a failing file. -/
def Reader.ReadLine (b : Reader) : GoString × Bool × Err × Reader :=
  match b.ReadSlice with
  | (line, err, b1) =>
    if err = Err.ErrBufferFull then
      if line.getLast? = some 13 then
        (line.dropLast, true, Err.nil, { b1 with rest := 13 :: b1.rest })
      else (line, true, Err.nil, b1)
    else if line.length = 0 then ([], false, err, b1)
    else if line.getLast? = some 10 then
      if 1 < line.length ∧ line.dropLast.getLast? = some 13 then
        (line.dropLast.dropLast, false, Err.nil, b1)
      else (line.dropLast, false, Err.nil, b1)
    else (line, false, Err.nil, b1)

/-- A `*bufio.Writer` made by `bufio.NewWriter(out)`: the sticky error `err`, the
buffered bytes `buf[0:n]` and the underlying file. -/
structure Writer where
  err : Err
  buf : GoString
  wr : OsFile
deriving DecidableEq, Repr

/-- Go `bufio.NewWriter(out)`. -/
def NewWriter (out : OsFile) : Writer := { err := Err.nil, buf := [], wr := out }

/-- Go `(*Writer).Available()`. -/
def Writer.Available (b : Writer) : Nat := defaultBufSize - b.buf.length

/-- Go `(*Writer).Buffered()`. -/
def Writer.Buffered (b : Writer) : Nat := b.buf.length

/-- Go `(*Writer).Flush()`. -/
def Writer.Flush (b : Writer) : Writer × Err :=
  if b.err ≠ Err.nil then (b, b.err)
  else if b.buf.length = 0 then (b, Err.nil)
  else
    match b.wr.Write b.buf with
    | (wr1, n, err) =>
      let err1 := if n < b.buf.length ∧ err = Err.nil then Err.ErrShortWrite else err
      if err1 ≠ Err.nil then ({ err := err1, buf := b.buf.drop n, wr := wr1 }, err1)
      else ({ b with buf := [], wr := wr1 }, Err.nil)

/-- The `for len(p) > b.Available() && b.err == nil` loop of `(*Writer).Write`, with the
count `nn` of bytes taken so far. The first argument bounds the number of iterations;
the loop body runs at most twice (once to fill and flush the buffer, once to write
the rest directly), so any bound from `2` gives the same result. -/
def Writer.writeLoop : Nat → Writer → GoString → Nat → Writer × GoString × Nat
  | 0, b, p, nn => (b, p, nn)
  | k + 1, b, p, nn =>
    if b.Available < p.length ∧ b.err = Err.nil then
      if b.Buffered = 0 then
        match b.wr.Write p with
        | (wr1, n, err) => writeLoop k { b with err := err, wr := wr1 } (p.drop n) (nn + n)
      else
        let n := min b.Available p.length
        match ({ b with buf := b.buf ++ p.take n } : Writer).Flush with
        | (b1, _) => writeLoop k b1 (p.drop n) (nn + n)
    else (b, p, nn)

/-- Go `(*Writer).Write(p)`: the writer after the call, the number of bytes taken and
the error. -/
def Writer.Write (b : Writer) (p : GoString) : Writer × Nat × Err :=
  match Writer.writeLoop 2 b p 0 with
  | (b1, p1, nn) =>
    if b1.err ≠ Err.nil then (b1, nn, b1.err)
    else ({ b1 with buf := b1.buf ++ p1 }, nn + p1.length, Err.nil)

end bufio

/-- Go `fmt.Fprintln(w, s)` for one string operand on a `*bufio.Writer`: a single
`w.Write` of the string followed by a newline. -/
def Fprintln (w : bufio.Writer) (s : GoString) : bufio.Writer × Nat × Err :=
  w.Write (s ++ [10])

/-! ## Go maps -/

/-- A Go `map[string]V`: its entries, each key once. The order of the list is not
observable; `for ... range` visits the entries in an order chosen by a `MapOrder`. -/
abbrev GoMap (V : Type) := List (GoString × V)

/-- The expression `m[k]` for a map of slices: the value stored under `k`, the zero value
`nil` if there is none. -/
def GoMap.index (m : GoMap (List GoString)) (k : GoString) : List GoString :=
  match m with
  | [] => []
  | (k1, v1) :: rest => if k1 = k then v1 else GoMap.index rest k

/-- The assignment `m[k] = v`: replaces the value of an existing key, adds the key
otherwise. -/
def GoMap.assign {V : Type} (m : GoMap V) (k : GoString) (v : V) : GoMap V :=
  match m with
  | [] => [(k, v)]
  | (k1, v1) :: rest => if k1 = k then (k, v) :: rest else (k1, v1) :: GoMap.assign rest k v

/-- The order in which one `for k, v := range m` statement visits the entries of a map.
Go leaves it unspecified: any rearrangement of the entries can occur. -/
structure MapOrder where
  visit : (V : Type) → List (GoString × V) → List (GoString × V)
  perm : ∀ (V : Type) (m : List (GoString × V)), (visit V m).Perm m

/-- The entries of `m` in the order a `range` statement visits them. -/
def GoMap.range {V : Type} (o : MapOrder) (m : GoMap V) : List (GoString × V) :=
  o.visit V m

/-! ## `doReduce` -/

/-- What a run of `doReduce` does that is visible from outside, in order. -/
inductive Event where
  | osOpen (name : GoString) (ok : Bool)
  | readLine (line : GoString) (isPrefix : Bool)
  | logCannotReadLine
  | logCannotUnmarshal (line : GoString)
  | fileClose (name : GoString) (ok : Bool)
  | reduceF (key : GoString) (values : List GoString)
  | osCreate (name : GoString) (ok : Bool)
  | fprintln (data : GoString) (err : Err)
  | flush (err : Err)
  | outClose (err : Err)
  | fatalf (name : GoString)
deriving DecidableEq, Repr

/-- How a call of `doReduce` ends: it returns to its caller (it has no result value),
or `log.Fatalf` ends the whole process through `os.Exit(1)`. -/
inductive Outcome where
  | returned
  | exited (status : Nat)
deriving DecidableEq, Repr

/-- The surroundings of a call of `doReduce`.
* `reduceName` is declared outside `common_reduce.go` and taken as a parameter;
* `openFile name` is `os.Open(name)`: the bytes the file delivers, `none` if it cannot
  be opened; `readFails name` says whether, once these bytes are delivered, the reads of
  the file keep failing instead of ending in `io.EOF` (an opened directory, a failing
  device); `closeFails name` says whether closing it reports an error;
* `create name` is `os.Create(name)`: the device limits of the new, empty file, `none`
  if it cannot be created;
* `rangeKvs` and `rangeResult` are the visiting orders of the two `range` loops;
* `jsonRaw` is the variant of the `encoding/json` encoder the program runs with (see
  `json.replacement`). -/
structure Env where
  reduceName : GoString → Int → Int → GoString
  openFile : GoString → Option GoString
  readFails : GoString → Bool
  closeFails : GoString → Bool
  create : GoString → Option (Option Nat × Bool)
  rangeKvs : MapOrder
  rangeResult : MapOrder
  jsonRaw : Bool

/-- The variables of `doReduce` that the reading loops change, and the events so far. -/
structure St where
  reduceKvs : GoMap (List GoString)
  events : List Event
deriving DecidableEq, Repr

/-- Append an event. -/
def St.emit (st : St) (e : Event) : St := { st with events := st.events ++ [e] }

/-- The inner `for { line, _, err := rb.ReadLine() ... }` loop (lines 68 to 85). The
first argument bounds the number of `ReadLine` calls; `none` means the bound was
reached before `io.EOF`. On a file read to its end the loop ends within the length of
the file plus one (`lineLoop_eq`); on a file whose reads keep failing it ends within no
bound (`lineLoop_never_ends`): the code logs the error and calls `ReadLine` again,
without end. -/
def lineLoop : Nat → bufio.Reader → St → Option St
  | 0, _, _ => none
  | fuel + 1, rb, st =>
    match rb.ReadLine with
    | (line, isPrefix, err, rb1) =>
      if err ≠ Err.nil then
        if err = Err.EOF then some st
        else lineLoop fuel rb1 (st.emit Event.logCannotReadLine)
      else
        let st1 := st.emit (Event.readLine line isPrefix)
        match json.Unmarshal line with
        | none => lineLoop fuel rb1 (st1.emit (Event.logCannotUnmarshal line))
        | some kv =>
          lineLoop fuel rb1
            { st1 with
              reduceKvs := st1.reduceKvs.assign kv.Key (st1.reduceKvs.index kv.Key ++ [kv.Value]) }

/-- How the outer loop ends: it ran to `i = nMap`, `log.Fatalf` ended the process, or an
inner loop does not end (`stuck`). -/
inductive LoopEnd where
  | done (st : St)
  | fatal (st : St)
  | stuck
deriving DecidableEq, Repr

/-- The outer loop `for i := 0; i < nMap; i++` (lines 60 to 91) from index `i` on, with
`n` iterations left. -/
def mapLoop (env : Env) (jobName : GoString) (reduceTask : Int) : Nat → Int → St → LoopEnd
  | 0, _, st => LoopEnd.done st
  | n + 1, i, st =>
    let fName := env.reduceName jobName i reduceTask
    match env.openFile fName with
    | none => LoopEnd.fatal ((st.emit (Event.osOpen fName false)).emit (Event.fatalf fName))
    | some content =>
      let rb := bufio.NewReader content (env.readFails fName)
      match lineLoop (content.length + 1) rb (st.emit (Event.osOpen fName true)) with
      | none => LoopEnd.stuck
      | some st1 =>
        mapLoop env jobName reduceTask n (i + 1)
          (st1.emit (Event.fileClose fName (!env.closeFails fName)))

/-- The loop `for k, v := range reduceKvs { result[k] = reduceF(k, v) }` (lines 94 to 96)
over the entries in visiting order: the `result` map and the calls of `reduceF`. -/
def reduceLoop (reduceF : GoString → List GoString → GoString) :
    List (GoString × List GoString) → GoMap GoString → List Event → GoMap GoString × List Event
  | [], result, ev => (result, ev)
  | (k, v) :: rest, result, ev =>
    reduceLoop reduceF rest (result.assign k (reduceF k v)) (ev ++ [Event.reduceF k v])

/-- The loop `for k, v := range result` (lines 104 to 109) over the entries in visiting
order: each record is marshalled and printed with `fmt.Fprintln`; the error results of
`json.Marshal` and `fmt.Fprintln` are discarded. -/
def writeLoop (raw : Bool) :
    List (GoString × GoString) → bufio.Writer → List Event → bufio.Writer × List Event
  | [], w, ev => (w, ev)
  | (k, v) :: rest, w, ev =>
    let kv : KeyValue := { Key := k, Value := v }
    let data := json.Marshal raw kv
    match Fprintln w data with
    | (w1, _, err) => writeLoop raw rest w1 (ev ++ [Event.fprintln data err])

/-- The result of a call of `doReduce`: the events in order, how the call ended, the
maps `reduceKvs` and `result` as they were when it ended, and the output file after the
call if `os.Create` succeeded. -/
structure Run where
  events : List Event
  outcome : Outcome
  reduceKvs : GoMap (List GoString)
  result : GoMap GoString
  out : Option OsFile
deriving DecidableEq, Repr

/-- The function `doReduce` of `common_reduce.go`. The result is `none` when the call
does not end: an inner reading loop never reaches `io.EOF`, which happens exactly when
the first intermediate file that is missing or unreadable is one that opens and whose
reads keep failing (`doReduce_eq_none_iff`). -/
def doReduce (env : Env) (jobName : GoString) (reduceTask : Int) (outFile : GoString)
    (nMap : Int) (reduceF : GoString → List GoString → GoString) : Option Run :=
  let st0 : St := { reduceKvs := [], events := [] }
  match mapLoop env jobName reduceTask nMap.toNat 0 st0 with
  | LoopEnd.stuck => none
  | LoopEnd.fatal st =>
    some { events := st.events, outcome := Outcome.exited 1, reduceKvs := st.reduceKvs,
           result := [], out := none }
  | LoopEnd.done st =>
    match reduceLoop reduceF (GoMap.range env.rangeKvs st.reduceKvs) [] st.events with
    | (result, ev1) =>
      match env.create outFile with
      | none =>
        some { events := ev1 ++ [Event.osCreate outFile false, Event.fatalf outFile],
               outcome := Outcome.exited 1, reduceKvs := st.reduceKvs, result := result,
               out := none }
      | some (room, closeFails) =>
        let out : OsFile := { data := [], room := room, closeFails := closeFails }
        let w := bufio.NewWriter out
        match writeLoop env.jsonRaw (GoMap.range env.rangeResult result) w
            (ev1 ++ [Event.osCreate outFile true]) with
        | (w1, ev2) =>
          match w1.Flush with
          | (w2, ferr) =>
            some { events := ev2 ++ [Event.flush ferr, Event.outClose w2.wr.Close],
                   outcome := Outcome.returned, reduceKvs := st.reduceKvs, result := result,
                   out := some w2.wr }

/-! ## Notions the statements below are written in -/

/-- The lines the successive calls of `ReadLine` deliver from a reader until `io.EOF`,
each with its `isPrefix` flag. The first argument bounds the number of calls. -/
def bufio.Reader.lines : Nat → bufio.Reader → List (GoString × Bool)
  | 0, _ => []
  | fuel + 1, rb =>
    match rb.ReadLine with
    | (line, isPrefix, err, rb1) =>
      if err ≠ Err.nil then
        if err = Err.EOF then [] else bufio.Reader.lines fuel rb1
      else (line, isPrefix) :: bufio.Reader.lines fuel rb1

/-- The lines of a file read to its end, as `ReadLine` delivers them, in order. -/
def fileLines (content : GoString) : List GoString :=
  ((bufio.NewReader content false).lines (content.length + 1)).map Prod.fst

/-- The records of the lines that `json.Unmarshal` decodes without error, in order. -/
def decodeLines (ls : List GoString) : List KeyValue := ls.filterMap json.Unmarshal

/-- The name of the intermediate file of map task `i`. -/
def fileName (env : Env) (jobName : GoString) (reduceTask : Int) (i : Nat) : GoString :=
  env.reduceName jobName (i : Int) reduceTask

/-- Every intermediate file of the `nMap` map tasks can be opened and read to its end. -/
def AllOpen (env : Env) (jobName : GoString) (reduceTask : Int) (nMap : Int) : Prop :=
  ∀ i : Nat, (i : Int) < nMap →
    (env.openFile (fileName env jobName reduceTask i)).isSome = true ∧
    env.readFails (fileName env jobName reduceTask i) = false

/-- The successfully decoded records of one file, in line order; none for a file that
cannot be opened. -/
def fileRecords (env : Env) (name : GoString) : List KeyValue :=
  match env.openFile name with
  | some content => decodeLines (fileLines content)
  | none => []

/-- The successfully decoded records of the intermediate files of map tasks
`0 .. nMap - 1`, in file-then-line order. -/
def allRecords (env : Env) (jobName : GoString) (reduceTask : Int) (nMap : Int) :
    List KeyValue :=
  (List.range nMap.toNat).flatMap
    (fun i => fileRecords env (fileName env jobName reduceTask i))

/-- The values of the records with key `k`, in the order of the records. -/
def valuesOf (k : GoString) (recs : List KeyValue) : List GoString :=
  (recs.filter (fun r => r.Key = k)).map (fun r => r.Value)

/-- The statement `reduceKvs[kv.Key] = append(reduceKvs[kv.Key], kv.Value)` of line 82. -/
def addRecord (m : GoMap (List GoString)) (kv : KeyValue) : GoMap (List GoString) :=
  m.assign kv.Key (m.index kv.Key ++ [kv.Value])

/-- The keys of a map, in list order. -/
def GoMap.keys {V : Type} (m : GoMap V) : List GoString := m.map Prod.fst

/-- The calls of `reduceF` among the events, in order. -/
def reduceCalls (ev : List Event) : List (GoString × List GoString) :=
  ev.filterMap (fun e => match e with
    | Event.reduceF k vs => some (k, vs)
    | _ => none)

/-- An event of the reading phase: opening, reading from or closing an intermediate
file. -/
def Event.isRead : Event → Bool
  | Event.osOpen _ _ => true
  | Event.readLine _ _ => true
  | Event.logCannotReadLine => true
  | Event.logCannotUnmarshal _ => true
  | Event.fileClose _ _ => true
  | _ => false

/-- An event on the output file: creating it, printing to it, flushing or closing it. -/
def Event.isOutput : Event → Bool
  | Event.osCreate _ _ => true
  | Event.fprintln _ _ => true
  | Event.flush _ => true
  | Event.outClose _ => true
  | _ => false

/-- A call of `reduceF`. -/
def Event.isReduce : Event → Bool
  | Event.reduceF _ _ => true
  | _ => false

/-- The error of a write or flush event, `Err.nil` for any other event. -/
def Event.writeErr : Event → Err
  | Event.fprintln _ err => err
  | Event.flush err => err
  | _ => Err.nil

/-- The text of an output file holding the given records, one marshalled record per
line. -/
def outputText (raw : Bool) (recs : List KeyValue) : GoString :=
  (recs.map (fun kv => json.Marshal raw kv ++ [10])).flatten

/-- A visiting order: the entries as they are stored. -/
def MapOrder.stored : MapOrder :=
  { visit := fun _ m => m, perm := fun _ m => List.Perm.refl m }

/-- A visiting order: the entries in reverse. -/
def MapOrder.reversed : MapOrder :=
  { visit := fun _ m => m.reverse, perm := fun _ m => List.reverse_perm m }

/-- The body of the reading loop for one line that `ReadLine` delivered (lines 77 to
83): the record is added to `reduceKvs`, or the decode error is logged. -/
def lineStep (st : St) (l : GoString × Bool) : St :=
  let st1 := st.emit (Event.readLine l.1 l.2)
  match json.Unmarshal l.1 with
  | none => st1.emit (Event.logCannotUnmarshal l.1)
  | some kv =>
    { st1 with
      reduceKvs := st1.reduceKvs.assign kv.Key (st1.reduceKvs.index kv.Key ++ [kv.Value]) }

/-- The name of the file an `os.Open` event is about. -/
def Event.openName : Event → Option GoString
  | Event.osOpen name _ => some name
  | _ => none

/-- A `Close` of an intermediate file. -/
def Event.isClose : Event → Bool
  | Event.fileClose _ _ => true
  | _ => false

/-- The intermediate files of map tasks `0 .. k - 1` can all be opened and read to their
ends, so that the outer loop reaches the file of map task `k`. -/
def ReadableBefore (env : Env) (jobName : GoString) (reduceTask : Int) (k : Nat) : Prop :=
  ∀ j : Nat, j < k →
    (env.openFile (fileName env jobName reduceTask j)).isSome = true ∧
    env.readFails (fileName env jobName reduceTask j) = false

/-- The outer loop reaches the file of map task `k < nMap`, and `os.Open` fails on it. -/
def MissingAt (env : Env) (jobName : GoString) (reduceTask : Int) (nMap : Int) (k : Nat) :
    Prop :=
  (k : Int) < nMap ∧ ReadableBefore env jobName reduceTask k ∧
    env.openFile (fileName env jobName reduceTask k) = none

/-- The outer loop reaches the file of map task `k < nMap`, `os.Open` succeeds on it, and
its reads keep failing. -/
def UnreadableAt (env : Env) (jobName : GoString) (reduceTask : Int) (nMap : Int) (k : Nat) :
    Prop :=
  (k : Int) < nMap ∧ ReadableBefore env jobName reduceTask k ∧
    (env.openFile (fileName env jobName reduceTask k)).isSome = true ∧
    env.readFails (fileName env jobName reduceTask k) = true

/-- The lines of a text file: the pieces between its newline bytes, a last piece without
a newline included. -/
def textLines : GoString → List GoString
  | [] => []
  | c :: rest =>
    if c = 10 then [] :: textLines rest
    else
      match textLines rest with
      | [] => [[c]]
      | l :: ls => (c :: l) :: ls

/-- The file that is left when every line that `json.Unmarshal` rejects is removed. -/
def dropUndecodable (content : GoString) : GoString :=
  (((textLines content).filter (fun l => (json.Unmarshal l).isSome)).map
    (fun l => l ++ [10])).flatten

/-- The text a `fmt.Fprintln` call of the writing loop was handed (the newline that
`Fprintln` adds to it not included). -/
def Event.printed : Event → Option GoString
  | Event.fprintln data _ => some data
  | _ => none

/-- The texts `doReduce` handed to `fmt.Fprintln`, in order. -/
def printedTexts (ev : List Event) : List GoString := ev.filterMap Event.printed

/-- A `reduceName` for the examples: the job name followed by the two indices as bytes
(`reduceName` itself is declared outside `common_reduce.go`). -/
def exampleName (jobName : GoString) (mapTask reduceTask : Int) : GoString :=
  jobName ++ [45, 48 + mapTask.toNat, 45, 48 + reduceTask.toNat]

/-- An intermediate file with the records `("b","1")` and `("a","2")`, written the way
`json.Marshal` encodes them, one per line. -/
def fileBA : GoString :=
  json.Marshal false { Key := [98], Value := [49] } ++ [10] ++
    json.Marshal false { Key := [97], Value := [50] } ++ [10]

/-- A reduce function for the examples: the values joined. -/
def joinValues (_key : GoString) (values : List GoString) : GoString := values.flatten

/-- Surroundings in which every intermediate file holds `fileBA`, the output file can be
created on a device without limit, and both `range` loops visit the entries as stored. -/
def envBA : Env :=
  { reduceName := exampleName
    openFile := fun _ => some fileBA
    readFails := fun _ => false
    closeFails := fun _ => false
    create := fun _ => some (none, false)
    rangeKvs := MapOrder.stored
    rangeResult := MapOrder.stored
    jsonRaw := false }

/-- Surroundings in which the intermediate file of map task 0 of job `j`, reduce task 0,
holds `fileBA` and no other file can be opened. -/
def envSecondMissing : Env :=
  { envBA with
    openFile := fun name => if name = exampleName [106] 0 0 then some fileBA else none }

/-- Surroundings like `envBA`, on a full device: the output file can be created but
takes no byte. -/
def envDiskFull : Env :=
  { envBA with create := fun _ => some (some 0, false) }

/-- Surroundings like `envBA` in which the output file cannot be created. -/
def envNoCreate : Env :=
  { envBA with create := fun _ => none }

/-- Surroundings like `envBA` in which every intermediate file opens but no read of it
succeeds (as with a directory in the place of the file). -/
def envUnreadable : Env :=
  { envBA with readFails := fun _ => true }

/-- The decimal number a string of ASCII digits denotes. -/
def parseDecimal (s : GoString) : Nat := s.foldl (fun acc b => acc * 10 + (b - 48)) 0

/-- A reduce function for the examples, sum-as-string: the sum of the values read as
decimal numbers, printed in decimal. -/
def sumValues (_key : GoString) (values : List GoString) : GoString :=
  (Nat.toDigits 10 (values.map parseDecimal).sum).map Char.toNat

/-- The first file of the example of the spec: the records `("a","1")`, `("b","2")`. -/
def fileA1B2 : GoString :=
  json.Marshal false { Key := [97], Value := [49] } ++ [10] ++
    json.Marshal false { Key := [98], Value := [50] } ++ [10]

/-- The second file of the example of the spec: the record `("a","3")`. -/
def fileA3 : GoString := json.Marshal false { Key := [97], Value := [51] } ++ [10]

/-- Surroundings of the example of the spec: two map tasks, the intermediate files
`fileA1B2` and `fileA3` for reduce task 0, a device without limit, and a second `range`
loop that visits the entries in reverse. -/
def envSpecExample : Env :=
  { reduceName := exampleName
    openFile := fun name =>
      if name = exampleName [106] 0 0 then some fileA1B2
      else if name = exampleName [106] 1 0 then some fileA3
      else none
    readFails := fun _ => false
    closeFails := fun _ => false
    create := fun _ => some (none, false)
    rangeKvs := MapOrder.stored
    rangeResult := MapOrder.reversed
    jsonRaw := false }

/-- An intermediate file with one line that is not JSON between two valid lines. -/
def fileWithJunk : GoString :=
  json.Marshal false { Key := [98], Value := [49] } ++ [10] ++ [106, 117, 110, 107, 10] ++
    json.Marshal false { Key := [97], Value := [50] } ++ [10]

/-- Surroundings like `envBA` in which every intermediate file holds `fileWithJunk`. -/
def envJunk : Env :=
  { envBA with openFile := fun _ => some fileWithJunk }

/-- Surroundings like `envBA` in which every intermediate file holds `content`. -/
def envFile (content : GoString) : Env :=
  { envBA with openFile := fun _ => some content }

/-- The record `("a","b")` as `json.Marshal` writes it, followed by `n` spaces and the
letter `x`, on one line: not the encoding of a record, since a letter follows the JSON
value. -/
def paddedLine (n : Nat) : GoString :=
  json.Marshal false { Key := [97], Value := [98] } ++ (List.replicate n 32 ++ [120])

/-- An intermediate file with the one line `paddedLine n`. -/
def filePadded (n : Nat) : GoString := paddedLine n ++ [10]

/-- A record whose value is `n` letters `a`. -/
def longRecord (n : Nat) : KeyValue := { Key := [107], Value := List.replicate n 97 }

/-- An intermediate file with the one record `longRecord n`, written the way
`json.Marshal` encodes it, on one line. -/
def fileLong (n : Nat) : GoString := json.Marshal false (longRecord n) ++ [10]

/-- Surroundings like `envBA` in which every intermediate file holds `fileLong n`. -/
def envLong (n : Nat) : Env :=
  { envBA with openFile := fun _ => some (fileLong n) }

/-- The start of the line of `longRecord n`, up to and including the opening quote of
the value. -/
def longHead : GoString :=
  [123, 34, 75, 101, 121, 34, 58, 34, 107, 34, 44, 34, 86, 97, 108, 117, 101, 34, 58, 34]

open bufio

/-! ## Reading -/

theorem bufio.Reader.endErr_ne (b : Reader) :
    b.endErr ≠ Err.nil ∧ b.endErr ≠ Err.ErrBufferFull := by
  unfold Reader.endErr
  split_ifs <;> exact ⟨by decide, by decide⟩

theorem bufio.Reader.ReadLine_err (b : Reader) :
    b.ReadLine.2.2.1 = Err.nil ∨ b.ReadLine.2.2.1 = b.endErr := by
  have he := (Reader.endErr_ne b).2
  unfold Reader.ReadLine Reader.ReadSlice
  simp only
  split_ifs <;> simp_all

theorem bufio.Reader.ReadLine_fails (b : Reader) : b.ReadLine.2.2.2.fails = b.fails := by
  unfold Reader.ReadLine Reader.ReadSlice
  simp only
  split_ifs <;> rfl

theorem bufio.Reader.ReadLine_lt (b : Reader) (h : b.ReadLine.2.2.1 = Err.nil) :
    b.ReadLine.2.2.2.rest.length < b.rest.length := by
  have hw : (List.takeWhile (fun c => decide (c ≠ 10)) (List.take defaultBufSize b.rest)).length
      ≤ (List.take defaultBufSize b.rest).length :=
    (List.takeWhile_sublist _).length_le
  have hd : defaultBufSize = 4096 := rfl
  have he := (Reader.endErr_ne b).1
  have he2 := (Reader.endErr_ne b).2
  revert h
  unfold Reader.ReadLine Reader.ReadSlice
  simp only
  split_ifs <;> simp_all
  all_goals first | omega | exact List.length_pos.mpr (by assumption)

/-- On a file read to its end the reading loop ends within the length of the file plus
one, having handled the lines `ReadLine` delivers, in order. -/
theorem lineLoop_eq (fuel : Nat) (rb : Reader) (st : St) (hf : rb.fails = false)
    (h : rb.rest.length < fuel) :
    lineLoop fuel rb st = some ((rb.lines fuel).foldl lineStep st) := by
  induction fuel generalizing rb st with
  | zero => omega
  | succ fuel ih =>
    unfold lineLoop Reader.lines
    have herr := Reader.ReadLine_err rb
    have hlt := Reader.ReadLine_lt rb
    have hfl := Reader.ReadLine_fails rb
    have hend : rb.endErr = Err.EOF := by simp [Reader.endErr, hf]
    rcases hrl : rb.ReadLine with ⟨line, pfx, err, rb1⟩
    rw [hrl] at herr hlt hfl
    rw [hend] at herr
    simp only at herr hlt hfl ⊢
    have hf1 : rb1.fails = false := by rw [hfl, hf]
    by_cases he : err = Err.nil
    · subst he
      have hlt1 := hlt rfl
      simp only [ne_eq, not_true_eq_false, if_false, List.foldl_cons]
      cases hu : json.Unmarshal line with
      | none =>
        simp only
        rw [ih _ _ hf1 (by omega)]
        simp [lineStep, hu]
      | some kv =>
        simp only
        rw [ih _ _ hf1 (by omega)]
        simp [lineStep, hu]
    · have : err = Err.EOF := by rcases herr with h1 | h1; exact absurd h1 he; exact h1
      subst this
      simp

/-- On a file whose reads keep failing the reading loop ends within no bound. -/
theorem lineLoop_never_ends (fuel : Nat) (rb : Reader) (st : St) (hf : rb.fails = true) :
    lineLoop fuel rb st = none := by
  induction fuel generalizing rb st with
  | zero => rfl
  | succ fuel ih =>
    unfold lineLoop
    have herr := Reader.ReadLine_err rb
    have hfl := Reader.ReadLine_fails rb
    have hend : rb.endErr = Err.EIO := by simp [Reader.endErr, hf]
    rcases hrl : rb.ReadLine with ⟨line, pfx, err, rb1⟩
    rw [hrl] at herr hfl
    rw [hend] at herr
    simp only at herr hfl ⊢
    have hf1 : rb1.fails = true := by rw [hfl, hf]
    by_cases he : err = Err.nil
    · subst he
      simp only [ne_eq, not_true_eq_false, if_false]
      cases hu : json.Unmarshal line with
      | none => exact ih _ _ hf1
      | some kv => exact ih _ _ hf1
    · have : err = Err.EIO := by rcases herr with h1 | h1; exact absurd h1 he; exact h1
      subst this
      simp only [ne_eq, not_false_eq_true, if_true, if_false, reduceCtorEq]
      exact ih _ _ hf1

theorem foldl_lineStep_reduceKvs (ls : List (GoString × Bool)) (st : St) :
    (ls.foldl lineStep st).reduceKvs
      = (decodeLines (ls.map Prod.fst)).foldl addRecord st.reduceKvs := by
  induction ls generalizing st with
  | nil => rfl
  | cons l ls ih =>
    rw [List.foldl_cons, ih]
    unfold decodeLines
    cases hu : json.Unmarshal l.1 with
    | none => simp [lineStep, hu, St.emit]
    | some kv => simp [lineStep, hu, St.emit, addRecord]

theorem foldl_lineStep_events (ls : List (GoString × Bool)) (st : St) :
    ∃ ev, (ls.foldl lineStep st).events = st.events ++ ev ∧
      (∀ e ∈ ev, e.isRead = true) ∧ (∀ e ∈ ev, e.openName = none) ∧
      (∀ e ∈ ev, e.isClose = false) := by
  induction ls generalizing st with
  | nil => exact ⟨[], by simp⟩
  | cons l ls ih =>
    rw [List.foldl_cons]
    obtain ⟨ev, h1, h2, h3, h4⟩ := ih (lineStep st l)
    cases hu : json.Unmarshal l.1 with
    | none =>
      refine ⟨[Event.readLine l.1 l.2, Event.logCannotUnmarshal l.1] ++ ev, ?_, ?_, ?_, ?_⟩
      · rw [h1]; simp [lineStep, hu, St.emit]
      · intro e he; simp at he; rcases he with rfl | rfl | he
        · rfl
        · rfl
        · exact h2 e he
      · intro e he; simp at he; rcases he with rfl | rfl | he
        · rfl
        · rfl
        · exact h3 e he
      · intro e he; simp at he; rcases he with rfl | rfl | he
        · rfl
        · rfl
        · exact h4 e he
    | some kv =>
      refine ⟨[Event.readLine l.1 l.2] ++ ev, ?_, ?_, ?_, ?_⟩
      · rw [h1]; simp [lineStep, hu, St.emit]
      · intro e he; simp at he; rcases he with rfl | he
        · rfl
        · exact h2 e he
      · intro e he; simp at he; rcases he with rfl | he
        · rfl
        · exact h3 e he
      · intro e he; simp at he; rcases he with rfl | he
        · rfl
        · exact h4 e he

/-! ## The outer loop -/

theorem mapLoop_done (env : Env) (jobName : GoString) (reduceTask : Int) (n i : Nat) (st : St)
    (hopen : ∀ j, i ≤ j → j < i + n →
      (env.openFile (fileName env jobName reduceTask j)).isSome = true ∧
        env.readFails (fileName env jobName reduceTask j) = false) :
    ∃ st1 ev, mapLoop env jobName reduceTask n (i : Int) st = LoopEnd.done st1 ∧
      st1.reduceKvs = ((List.range' i n).flatMap
        (fun j => fileRecords env (fileName env jobName reduceTask j))).foldl addRecord
          st.reduceKvs ∧
      st1.events = st.events ++ ev ∧ (∀ e ∈ ev, e.isRead = true) ∧
      (ev.filter Event.isClose).length = n ∧
      ev.filterMap Event.openName
        = (List.range' i n).map (fun j => fileName env jobName reduceTask j) := by
  induction n generalizing i st with
  | zero => exact ⟨st, [], by simp [mapLoop]⟩
  | succ n ih =>
    obtain ⟨h0, hrd⟩ := hopen i (le_refl _) (by omega)
    have hrd1 : env.readFails (env.reduceName jobName (i : Int) reduceTask) = false := hrd
    rcases hc : env.openFile (fileName env jobName reduceTask i) with _ | content
    · rw [hc] at h0; simp at h0
    · have hc1 : env.openFile (env.reduceName jobName (i : Int) reduceTask) = some content := hc
      obtain ⟨ev0, he0, hr0, ho0, hcl0⟩ := foldl_lineStep_events
        ((NewReader content false).lines (content.length + 1))
        (st.emit (Event.osOpen (fileName env jobName reduceTask i) true))
      obtain ⟨st1, ev, h1, h2, h3, h4, h5, h6⟩ := ih (i + 1)
        ((((NewReader content false).lines (content.length + 1)).foldl lineStep
          (st.emit (Event.osOpen (fileName env jobName reduceTask i) true))).emit
          (Event.fileClose (fileName env jobName reduceTask i)
            (!env.closeFails (fileName env jobName reduceTask i))))
        (fun j hj1 hj2 => hopen j (by omega) (by omega))
      refine ⟨st1, [Event.osOpen (fileName env jobName reduceTask i) true] ++ ev0 ++
        [Event.fileClose (fileName env jobName reduceTask i)
            (!env.closeFails (fileName env jobName reduceTask i))] ++ ev, ?_, ?_, ?_, ?_, ?_, ?_⟩
      · unfold mapLoop
        simp only [hc1, hrd1]
        rw [lineLoop_eq _ _ _ rfl (by simp [NewReader])]
        simp only
        have : ((i : Int) + 1) = ((i + 1 : Nat) : Int) := by push_cast; rfl
        rw [this]
        exact h1
      · rw [h2]
        simp only [St.emit, foldl_lineStep_reduceKvs, List.range'_succ, List.flatMap_cons,
          List.foldl_append, fileRecords, hc, fileLines]
      · simp only [St.emit] at he0 h3 ⊢
        rw [h3, he0]; simp
      · intro e he
        simp only [List.mem_append, List.mem_singleton] at he
        rcases he with ((rfl | he) | rfl) | he
        · rfl
        · exact hr0 e he
        · rfl
        · exact h4 e he
      · have hz : ev0.filter Event.isClose = [] := by
          rw [List.filter_eq_nil_iff]
          intro e he; simp [hcl0 e he]
        simp [List.filter_append, List.filter_cons, Event.isClose, hz, h5]
      · have hz : ev0.filterMap Event.openName = [] := by
          rw [List.filterMap_eq_nil_iff]
          intro e he; exact ho0 e he
        simp [List.filterMap_append, Event.openName, hz, h6, List.range'_succ]

theorem mapLoop_fatal (env : Env) (jobName : GoString) (reduceTask : Int) (k n i : Nat)
    (st : St) (hk : k < n)
    (hopen : ∀ j, i ≤ j → j < i + k →
      (env.openFile (fileName env jobName reduceTask j)).isSome = true ∧
        env.readFails (fileName env jobName reduceTask j) = false)
    (hfail : env.openFile (fileName env jobName reduceTask (i + k)) = none) :
    ∃ st1 ev, mapLoop env jobName reduceTask n (i : Int) st = LoopEnd.fatal st1 ∧
      st1.events = st.events ++ ev ++
        [Event.osOpen (fileName env jobName reduceTask (i + k)) false,
          Event.fatalf (fileName env jobName reduceTask (i + k))] ∧
      (∀ e ∈ ev, e.isRead = true) ∧
      ev.filterMap Event.openName
        = (List.range' i k).map (fun j => fileName env jobName reduceTask j) := by
  induction k generalizing n i st with
  | zero =>
    obtain ⟨n, rfl⟩ : ∃ m, n = m + 1 := ⟨n - 1, by omega⟩
    have hf : env.openFile (env.reduceName jobName (i : Int) reduceTask) = none := by
      simpa [fileName] using hfail
    refine ⟨(st.emit (Event.osOpen (fileName env jobName reduceTask i) false)).emit
      (Event.fatalf (fileName env jobName reduceTask i)), [], ?_, ?_, by simp, by simp⟩
    · unfold mapLoop
      simp only [hf]
      rfl
    · simp [St.emit, fileName]
  | succ k ih =>
    obtain ⟨n, rfl⟩ : ∃ m, n = m + 1 := ⟨n - 1, by omega⟩
    obtain ⟨h0, hrd⟩ := hopen i (le_refl _) (by omega)
    have hrd1 : env.readFails (env.reduceName jobName (i : Int) reduceTask) = false := hrd
    rcases hc : env.openFile (fileName env jobName reduceTask i) with _ | content
    · rw [hc] at h0; simp at h0
    · have hc1 : env.openFile (env.reduceName jobName (i : Int) reduceTask) = some content := hc
      obtain ⟨ev0, he0, hr0, ho0, hcl0⟩ := foldl_lineStep_events
        ((NewReader content false).lines (content.length + 1))
        (st.emit (Event.osOpen (fileName env jobName reduceTask i) true))
      have hik : i + 1 + k = i + (k + 1) := by omega
      obtain ⟨st1, ev, h1, h2, h3, h4⟩ := ih n (i + 1)
        ((((NewReader content false).lines (content.length + 1)).foldl lineStep
          (st.emit (Event.osOpen (fileName env jobName reduceTask i) true))).emit
          (Event.fileClose (fileName env jobName reduceTask i)
            (!env.closeFails (fileName env jobName reduceTask i))))
        (by omega) (fun j hj1 hj2 => hopen j (by omega) (by omega)) (by rw [hik]; exact hfail)
      refine ⟨st1, [Event.osOpen (fileName env jobName reduceTask i) true] ++ ev0 ++
        [Event.fileClose (fileName env jobName reduceTask i)
            (!env.closeFails (fileName env jobName reduceTask i))] ++ ev, ?_, ?_, ?_, ?_⟩
      · unfold mapLoop
        simp only [hc1, hrd1]
        rw [lineLoop_eq _ _ _ rfl (by simp [NewReader])]
        simp only
        have : ((i : Int) + 1) = ((i + 1 : Nat) : Int) := by push_cast; rfl
        rw [this]
        exact h1
      · simp only [St.emit] at he0 h2 ⊢
        rw [h2, he0, hik]; simp
      · intro e he
        simp only [List.mem_append, List.mem_singleton] at he
        rcases he with ((rfl | he) | rfl) | he
        · rfl
        · exact hr0 e he
        · rfl
        · exact h3 e he
      · have hz : ev0.filterMap Event.openName = [] := by
          rw [List.filterMap_eq_nil_iff]
          intro e he; exact ho0 e he
        simp [List.filterMap_append, Event.openName, hz, h4, List.range'_succ]

theorem mapLoop_stuck (env : Env) (jobName : GoString) (reduceTask : Int) (k n i : Nat)
    (st : St) (hk : k < n)
    (hopen : ∀ j, i ≤ j → j < i + k →
      (env.openFile (fileName env jobName reduceTask j)).isSome = true ∧
        env.readFails (fileName env jobName reduceTask j) = false)
    (hsome : (env.openFile (fileName env jobName reduceTask (i + k))).isSome = true)
    (hfail : env.readFails (fileName env jobName reduceTask (i + k)) = true) :
    mapLoop env jobName reduceTask n (i : Int) st = LoopEnd.stuck := by
  induction k generalizing n i st with
  | zero =>
    obtain ⟨n, rfl⟩ : ∃ m, n = m + 1 := ⟨n - 1, by omega⟩
    rcases hc : env.openFile (fileName env jobName reduceTask (i + 0)) with _ | content
    · rw [hc] at hsome; simp at hsome
    · have hc1 : env.openFile (env.reduceName jobName (i : Int) reduceTask) = some content := by
        simpa [fileName] using hc
      have hf : env.readFails (env.reduceName jobName (i : Int) reduceTask) = true := by
        simpa [fileName] using hfail
      unfold mapLoop
      simp only [hc1, hf]
      rw [lineLoop_never_ends _ _ _ rfl]
  | succ k ih =>
    obtain ⟨n, rfl⟩ : ∃ m, n = m + 1 := ⟨n - 1, by omega⟩
    obtain ⟨h0, hrd⟩ := hopen i (le_refl _) (by omega)
    have hrd1 : env.readFails (env.reduceName jobName (i : Int) reduceTask) = false := hrd
    rcases hc : env.openFile (fileName env jobName reduceTask i) with _ | content
    · rw [hc] at h0; simp at h0
    · have hc1 : env.openFile (env.reduceName jobName (i : Int) reduceTask) = some content := hc
      have hik : i + 1 + k = i + (k + 1) := by omega
      unfold mapLoop
      simp only [hc1, hrd1]
      rw [lineLoop_eq _ _ _ rfl (by simp [NewReader])]
      simp only
      have : ((i : Int) + 1) = ((i + 1 : Nat) : Int) := by push_cast; rfl
      rw [this]
      exact ih n (i + 1) _ (by omega) (fun j hj1 hj2 => hopen j (by omega) (by omega))
        (by rw [hik]; exact hsome) (by rw [hik]; exact hfail)

/-! ## Maps -/

theorem GoMap.index_assign (m : GoMap (List GoString)) (k k1 : GoString) (v : List GoString) :
    GoMap.index (GoMap.assign m k v) k1 = if k1 = k then v else GoMap.index m k1 := by
  induction m with
  | nil =>
    by_cases h : k1 = k
    · subst h; simp [GoMap.assign, GoMap.index]
    · have h1 : ¬ k = k1 := fun e => h e.symm
      simp [GoMap.assign, GoMap.index, h, h1]
  | cons e m ih =>
    obtain ⟨a, b⟩ := e
    by_cases hak : a = k
    · subst hak
      by_cases h : k1 = a
      · subst h; simp [GoMap.assign, GoMap.index]
      · have h1 : ¬ a = k1 := fun e => h e.symm
        simp [GoMap.assign, GoMap.index, h, h1]
    · by_cases h : k1 = k
      · subst h
        simp [GoMap.assign, GoMap.index, hak, ih]
      · by_cases ha1 : a = k1
        · simp [GoMap.assign, GoMap.index, hak, ha1, h]
        · simp [GoMap.assign, GoMap.index, hak, ha1, h, ih]

theorem GoMap.assign_of_not_mem {V : Type} (m : GoMap V) (k : GoString) (v : V)
    (h : k ∉ GoMap.keys m) : GoMap.assign m k v = m ++ [(k, v)] := by
  induction m with
  | nil => rfl
  | cons e m ih =>
    obtain ⟨a, b⟩ := e
    simp only [GoMap.keys, List.map_cons, List.mem_cons, not_or] at h
    have hak : ¬ a = k := fun e => h.1 e.symm
    simp only [GoMap.assign, hak, if_false, List.cons_append]
    rw [ih h.2]

theorem GoMap.keys_assign_of_mem {V : Type} (m : GoMap V) (k : GoString) (v : V)
    (h : k ∈ GoMap.keys m) : GoMap.keys (GoMap.assign m k v) = GoMap.keys m := by
  induction m with
  | nil => simp [GoMap.keys] at h
  | cons e m ih =>
    obtain ⟨a, b⟩ := e
    by_cases hak : a = k
    · subst hak; simp [GoMap.assign, GoMap.keys]
    · simp only [GoMap.keys, List.map_cons, List.mem_cons] at h
      have hm : k ∈ GoMap.keys m := by
        rcases h with h | h
        · exact absurd h.symm hak
        · exact h
      have := ih hm
      simp only [GoMap.keys] at this
      simp [GoMap.assign, GoMap.keys, hak, this]

theorem GoMap.keys_assign_nodup {V : Type} (m : GoMap V) (k : GoString) (v : V)
    (h : (GoMap.keys m).Nodup) : (GoMap.keys (GoMap.assign m k v)).Nodup := by
  by_cases hk : k ∈ GoMap.keys m
  · rw [GoMap.keys_assign_of_mem m k v hk]; exact h
  · rw [GoMap.assign_of_not_mem m k v hk]
    simp only [GoMap.keys, List.map_append, List.map_cons, List.map_nil]
    rw [List.nodup_append]
    refine ⟨h, List.nodup_singleton _, ?_⟩
    intro a ha hb
    simp only [List.mem_singleton] at hb
    subst hb
    exact hk ha

theorem GoMap.mem_keys_assign {V : Type} (m : GoMap V) (k k1 : GoString) (v : V) :
    k1 ∈ GoMap.keys (GoMap.assign m k v) ↔ k1 ∈ GoMap.keys m ∨ k1 = k := by
  by_cases hk : k ∈ GoMap.keys m
  · rw [GoMap.keys_assign_of_mem m k v hk]
    constructor
    · exact Or.inl
    · rintro (h | h)
      · exact h
      · subst h; exact hk
  · rw [GoMap.assign_of_not_mem m k v hk]
    simp [GoMap.keys]

theorem GoMap.index_of_mem (m : GoMap (List GoString)) (k : GoString) (v : List GoString)
    (hn : (GoMap.keys m).Nodup) (h : (k, v) ∈ m) : GoMap.index m k = v := by
  induction m with
  | nil => simp at h
  | cons e m ih =>
    obtain ⟨a, b⟩ := e
    simp only [GoMap.keys, List.map_cons, List.nodup_cons] at hn
    simp only [List.mem_cons, Prod.mk.injEq] at h
    rcases h with ⟨rfl, rfl⟩ | h
    · simp [GoMap.index]
    · have hak : ¬ a = k := by
        intro e; subst e
        exact hn.1 (List.mem_map_of_mem Prod.fst h)
      simp only [GoMap.index, hak, if_false]
      exact ih hn.2 h

/-! ## Grouping -/

theorem foldl_addRecord_index (recs : List KeyValue) (m : GoMap (List GoString))
    (k : GoString) :
    GoMap.index (recs.foldl addRecord m) k = GoMap.index m k ++ valuesOf k recs := by
  induction recs generalizing m with
  | nil => simp [valuesOf]
  | cons r recs ih =>
    rw [List.foldl_cons, ih]
    unfold addRecord
    rw [GoMap.index_assign]
    by_cases h : k = r.Key
    · subst h; simp [valuesOf]
    · have h1 : ¬ r.Key = k := fun e => h e.symm
      simp [valuesOf, h, h1]

theorem foldl_addRecord_nodup (recs : List KeyValue) (m : GoMap (List GoString))
    (h : (GoMap.keys m).Nodup) : (GoMap.keys (recs.foldl addRecord m)).Nodup := by
  induction recs generalizing m with
  | nil => exact h
  | cons r recs ih =>
    rw [List.foldl_cons]
    exact ih _ (GoMap.keys_assign_nodup _ _ _ h)

theorem foldl_addRecord_mem_keys (recs : List KeyValue) (m : GoMap (List GoString))
    (k : GoString) :
    k ∈ GoMap.keys (recs.foldl addRecord m) ↔ k ∈ GoMap.keys m ∨ ∃ r ∈ recs, r.Key = k := by
  induction recs generalizing m with
  | nil => simp
  | cons r recs ih =>
    rw [List.foldl_cons, ih]
    unfold addRecord
    rw [GoMap.mem_keys_assign]
    constructor
    · rintro ((h | h) | ⟨r1, hr1, h⟩)
      · exact Or.inl h
      · exact Or.inr ⟨r, List.mem_cons_self _ _, h.symm⟩
      · exact Or.inr ⟨r1, List.mem_cons_of_mem _ hr1, h⟩
    · rintro (h | ⟨r1, hr1, h⟩)
      · exact Or.inl (Or.inl h)
      · rcases List.mem_cons.1 hr1 with e | hr1
        · subst e; exact Or.inl (Or.inr h.symm)
        · exact Or.inr ⟨r1, hr1, h⟩

/-! ## The reduce loop -/

theorem reduceLoop_eq (reduceF : GoString → List GoString → GoString)
    (es : List (GoString × List GoString)) (result : GoMap GoString) (ev : List Event)
    (hn : (es.map Prod.fst).Nodup) (hd : ∀ k ∈ GoMap.keys result, k ∉ es.map Prod.fst) :
    reduceLoop reduceF es result ev
      = (result ++ es.map (fun e => (e.1, reduceF e.1 e.2)),
         ev ++ es.map (fun e => Event.reduceF e.1 e.2)) := by
  induction es generalizing result ev with
  | nil => simp [reduceLoop]
  | cons e es ih =>
    obtain ⟨k, v⟩ := e
    simp only [List.map_cons, List.nodup_cons] at hn
    have hk : k ∉ GoMap.keys result := by
      intro h
      exact hd k h (by simp)
    unfold reduceLoop
    rw [GoMap.assign_of_not_mem _ _ _ hk, ih _ _ hn.2]
    · simp
    · intro k1 hk1
      simp only [GoMap.keys, List.map_append, List.map_cons, List.map_nil, List.mem_append,
        List.mem_singleton] at hk1
      rcases hk1 with h | h
      · intro hm
        exact hd k1 h (by simp [hm])
      · subst h; exact hn.1

/-! ## Writing -/

theorem OsFile.Write_ok (f : OsFile) (p : GoString) (h : (f.Write p).2.2 = Err.nil) :
    (f.Write p).2.1 = p.length ∧ (f.Write p).1.data = f.data ++ p := by
  revert h
  unfold OsFile.Write
  cases f.room with
  | none => simp
  | some r =>
    by_cases hr : p.length ≤ r
    · simp [hr]
    · simp [hr]

theorem bufio.Writer.Flush_err (b : Writer) : b.Flush.2 = b.Flush.1.err := by
  unfold Writer.Flush
  by_cases h1 : b.err = Err.nil
  · by_cases h2 : b.buf.length = 0
    · simp [h1, h2]
    · simp only [h1, ne_eq, not_true_eq_false, if_false, h2]
      split_ifs <;> simp_all
  · simp [h1]

theorem bufio.Writer.Flush_nil (b : Writer) (h : b.Flush.1.err = Err.nil) :
    b.err = Err.nil ∧ b.Flush.1.buf = [] ∧ b.Flush.1.wr.data = b.wr.data ++ b.buf := by
  revert h
  unfold Writer.Flush
  by_cases h1 : b.err = Err.nil
  · by_cases h2 : b.buf.length = 0
    · have h3 : b.buf = [] := List.length_eq_zero.mp h2
      simp [h1, h2, h3]
    · have hw := OsFile.Write_ok b.wr b.buf
      rcases hW : b.wr.Write b.buf with ⟨wr1, n, e⟩
      rw [hW] at hw
      simp only at hw
      simp only [h1, ne_eq, not_true_eq_false, if_false, h2]
      by_cases he : e = Err.nil
      · subst he
        obtain ⟨hn, hd⟩ := hw rfl
        have hlt : ¬ n < b.buf.length := by omega
        simp [hlt, hd]
      · simp [he]
  · simp [h1]

theorem bufio.Writer.writeLoop_inv (k : Nat) (b : Writer) (p : GoString) (nn : Nat)
    (h : (Writer.writeLoop k b p nn).1.err = Err.nil) :
    b.err = Err.nil ∧
      (Writer.writeLoop k b p nn).1.wr.data ++ (Writer.writeLoop k b p nn).1.buf ++
          (Writer.writeLoop k b p nn).2.1
        = b.wr.data ++ b.buf ++ p := by
  induction k generalizing b p nn with
  | zero => exact ⟨h, rfl⟩
  | succ k ih =>
    revert h
    unfold Writer.writeLoop
    by_cases hc : b.Available < p.length ∧ b.err = Err.nil
    · simp only [hc, and_self, if_true]
      by_cases hb : b.Buffered = 0
      · have hbuf : b.buf = [] := List.length_eq_zero.mp hb
        have hw := OsFile.Write_ok b.wr p
        rcases hW : b.wr.Write p with ⟨wr1, n, e⟩
        rw [hW] at hw
        simp only at hw
        simp only [hb, if_true]
        intro h
        obtain ⟨h1, h2⟩ := ih _ _ _ h
        simp only at h1 h2
        subst h1
        obtain ⟨hn, hd⟩ := hw rfl
        refine ⟨trivial, ?_⟩
        rw [h2, hd, hn, hbuf]
        simp
      · simp only [hb, if_false]
        intro h
        obtain ⟨h1, h2⟩ := ih _ _ _ h
        obtain ⟨_, h4, h5⟩ := Writer.Flush_nil _ h1
        refine ⟨trivial, ?_⟩
        rw [h2, h4, h5]
        simp only [List.append_nil, List.append_assoc, List.take_append_drop]
    · simp only [hc, if_false]
      intro h
      exact ⟨h, trivial⟩

theorem bufio.Writer.Write_nil (b : Writer) (p : GoString) (h : (b.Write p).2.2 = Err.nil) :
    b.err = Err.nil ∧ (b.Write p).1.err = Err.nil ∧
      (b.Write p).1.wr.data ++ (b.Write p).1.buf = b.wr.data ++ b.buf ++ p := by
  have hinv := Writer.writeLoop_inv 2 b p 0
  revert h
  unfold Writer.Write
  rcases hL : Writer.writeLoop 2 b p 0 with ⟨b1, p1, nn⟩
  rw [hL] at hinv
  simp only at hinv ⊢
  by_cases he : b1.err = Err.nil
  · obtain ⟨h1, h2⟩ := hinv he
    simp only [he, ne_eq, not_true_eq_false, if_false]
    intro _
    refine ⟨h1, trivial, ?_⟩
    rw [← h2]; simp
  · simp [he]

theorem Fprintln_nil (w : Writer) (s : GoString) (h : (Fprintln w s).2.2 = Err.nil) :
    w.err = Err.nil ∧ (Fprintln w s).1.err = Err.nil ∧
      (Fprintln w s).1.wr.data ++ (Fprintln w s).1.buf = w.wr.data ++ w.buf ++ (s ++ [10]) :=
  Writer.Write_nil w (s ++ [10]) h

theorem writeLoop_events (raw : Bool) (es : List (GoString × GoString)) (w : Writer)
    (ev : List Event) :
    ∃ evs, (writeLoop raw es w ev).2 = ev ++ evs ∧
      (∀ e ∈ evs, e.isOutput = true ∧ e.isRead = false ∧ e.isReduce = false) ∧
      ((∀ e ∈ evs, e.writeErr = Err.nil) → w.err = Err.nil →
        (writeLoop raw es w ev).1.err = Err.nil ∧
        (writeLoop raw es w ev).1.wr.data ++ (writeLoop raw es w ev).1.buf
          = w.wr.data ++ w.buf ++
            outputText raw (es.map (fun e => { Key := e.1, Value := e.2 }))) := by
  induction es generalizing w ev with
  | nil => exact ⟨[], by simp [writeLoop, outputText]⟩
  | cons e es ih =>
    obtain ⟨k, v⟩ := e
    have hF := Fprintln_nil w (json.Marshal raw { Key := k, Value := v })
    rcases hW : Fprintln w (json.Marshal raw { Key := k, Value := v }) with ⟨w1, n, err⟩
    rw [hW] at hF
    simp only at hF
    obtain ⟨evs, h1, h2, h3⟩ :=
      ih w1 (ev ++ [Event.fprintln (json.Marshal raw { Key := k, Value := v }) err])
    refine ⟨[Event.fprintln (json.Marshal raw { Key := k, Value := v }) err] ++ evs, ?_, ?_, ?_⟩
    · unfold writeLoop
      simp only [hW]
      rw [h1]; simp
    · intro e he
      rcases List.mem_append.1 he with he | he
      · simp only [List.mem_singleton] at he
        subst he
        exact ⟨rfl, rfl, rfl⟩
      · exact h2 e he
    · intro hall hw
      have herr : err = Err.nil := by
        have := hall (Event.fprintln (json.Marshal raw { Key := k, Value := v }) err) (by simp)
        simpa [Event.writeErr] using this
      obtain ⟨_, hw1, hd⟩ := hF herr
      obtain ⟨h4, h5⟩ := h3 (fun e he => hall e (List.mem_append_right _ he)) hw1
      unfold writeLoop
      simp only [hW]
      refine ⟨h4, ?_⟩
      rw [h5, hd]
      simp [outputText]

/-! ## The whole function -/

theorem Event.not_reduce_of_isRead (e : Event) (h : e.isRead = true) :
    e.isReduce = false ∧ e.isOutput = false ∧ e.writeErr = Err.nil := by
  cases e <;> simp_all [Event.isRead, Event.isReduce, Event.isOutput, Event.writeErr]

theorem allRecords_nodup_keys (env : Env) (jobName : GoString) (reduceTask nMap : Int) :
    (GoMap.keys ((allRecords env jobName reduceTask nMap).foldl addRecord [])).Nodup :=
  foldl_addRecord_nodup _ _ (by simp [GoMap.keys])

theorem range_nodup_keys (o : MapOrder) (m : GoMap (List GoString))
    (h : (GoMap.keys m).Nodup) : ((GoMap.range o m).map Prod.fst).Nodup := by
  have hp : ((GoMap.range o m).map Prod.fst).Perm (m.map Prod.fst) :=
    (o.perm _ m).map Prod.fst
  exact hp.nodup_iff.mpr h

/-- The run of `doReduce` when every intermediate file opens and is read to its end,
written out. -/
theorem doReduce_allOpen (env : Env) (jobName : GoString) (reduceTask : Int)
    (outFile : GoString) (nMap : Int) (reduceF : GoString → List GoString → GoString)
    (hopen : AllOpen env jobName reduceTask nMap) :
    ∃ evR : List Event, (∀ e ∈ evR, e.isRead = true) ∧
      (evR.filter Event.isClose).length = nMap.toNat ∧
      doReduce env jobName reduceTask outFile nMap reduceF =
        match env.create outFile with
        | none =>
          some { events := evR ++
                   (GoMap.range env.rangeKvs
                     ((allRecords env jobName reduceTask nMap).foldl addRecord [])).map
                     (fun e => Event.reduceF e.1 e.2) ++
                   [Event.osCreate outFile false, Event.fatalf outFile],
                 outcome := Outcome.exited 1,
                 reduceKvs := (allRecords env jobName reduceTask nMap).foldl addRecord [],
                 result := (GoMap.range env.rangeKvs
                     ((allRecords env jobName reduceTask nMap).foldl addRecord [])).map
                     (fun e => (e.1, reduceF e.1 e.2)),
                 out := none }
        | some (room, closeFails) =>
          some { events :=
                   (writeLoop env.jsonRaw (GoMap.range env.rangeResult
                     ((GoMap.range env.rangeKvs
                       ((allRecords env jobName reduceTask nMap).foldl addRecord [])).map
                       (fun e => (e.1, reduceF e.1 e.2))))
                     (NewWriter { data := [], room := room, closeFails := closeFails })
                     (evR ++
                       (GoMap.range env.rangeKvs
                         ((allRecords env jobName reduceTask nMap).foldl addRecord [])).map
                         (fun e => Event.reduceF e.1 e.2) ++
                       [Event.osCreate outFile true])).2 ++
                   [Event.flush (writeLoop env.jsonRaw (GoMap.range env.rangeResult
                     ((GoMap.range env.rangeKvs
                       ((allRecords env jobName reduceTask nMap).foldl addRecord [])).map
                       (fun e => (e.1, reduceF e.1 e.2))))
                     (NewWriter { data := [], room := room, closeFails := closeFails })
                     (evR ++
                       (GoMap.range env.rangeKvs
                         ((allRecords env jobName reduceTask nMap).foldl addRecord [])).map
                         (fun e => Event.reduceF e.1 e.2) ++
                       [Event.osCreate outFile true])).1.Flush.2,
                    Event.outClose (writeLoop env.jsonRaw (GoMap.range env.rangeResult
                     ((GoMap.range env.rangeKvs
                       ((allRecords env jobName reduceTask nMap).foldl addRecord [])).map
                       (fun e => (e.1, reduceF e.1 e.2))))
                     (NewWriter { data := [], room := room, closeFails := closeFails })
                     (evR ++
                       (GoMap.range env.rangeKvs
                         ((allRecords env jobName reduceTask nMap).foldl addRecord [])).map
                         (fun e => Event.reduceF e.1 e.2) ++
                       [Event.osCreate outFile true])).1.Flush.1.wr.Close],
                 outcome := Outcome.returned,
                 reduceKvs := (allRecords env jobName reduceTask nMap).foldl addRecord [],
                 result := (GoMap.range env.rangeKvs
                     ((allRecords env jobName reduceTask nMap).foldl addRecord [])).map
                     (fun e => (e.1, reduceF e.1 e.2)),
                 out := some (writeLoop env.jsonRaw (GoMap.range env.rangeResult
                     ((GoMap.range env.rangeKvs
                       ((allRecords env jobName reduceTask nMap).foldl addRecord [])).map
                       (fun e => (e.1, reduceF e.1 e.2))))
                     (NewWriter { data := [], room := room, closeFails := closeFails })
                     (evR ++
                       (GoMap.range env.rangeKvs
                         ((allRecords env jobName reduceTask nMap).foldl addRecord [])).map
                         (fun e => Event.reduceF e.1 e.2) ++
                       [Event.osCreate outFile true])).1.Flush.1.wr } := by
  obtain ⟨st1, ev, h1, h2, h3, h4, h5, _⟩ :=
    mapLoop_done env jobName reduceTask nMap.toNat 0 { reduceKvs := [], events := [] }
      (fun j _ hj => hopen j (by omega))
  have hkvs : st1.reduceKvs = (allRecords env jobName reduceTask nMap).foldl addRecord [] := by
    rw [h2]; simp [allRecords, List.range_eq_range']
  have hev : st1.events = ev := by rw [h3]; simp
  have hnd := range_nodup_keys env.rangeKvs _ (allRecords_nodup_keys env jobName reduceTask nMap)
  refine ⟨ev, h4, h5, ?_⟩
  have h1' : mapLoop env jobName reduceTask nMap.toNat 0 { reduceKvs := [], events := [] }
      = LoopEnd.done st1 := by simpa using h1
  unfold doReduce
  simp only [h1', hkvs, hev]
  rw [reduceLoop_eq reduceF _ [] ev hnd (by simp [GoMap.keys])]
  cases env.create outFile with
  | none => simp
  | some d =>
    obtain ⟨room, cf⟩ := d
    simp

/-- The run of `doReduce` when the files before that of map task `k` are read and the
file of map task `k` cannot be opened, written out. -/
theorem doReduce_notOpen (env : Env) (jobName : GoString) (reduceTask : Int)
    (outFile : GoString) (nMap : Int) (reduceF : GoString → List GoString → GoString)
    (k : Nat) (hk : (k : Int) < nMap)
    (hopen : ReadableBefore env jobName reduceTask k)
    (hfail : env.openFile (fileName env jobName reduceTask k) = none) :
    ∃ (evR : List Event) (kvs : GoMap (List GoString)), (∀ e ∈ evR, e.isRead = true) ∧
      evR.filterMap Event.openName
        = (List.range k).map (fun j => fileName env jobName reduceTask j) ∧
      doReduce env jobName reduceTask outFile nMap reduceF =
        some { events := evR ++ [Event.osOpen (fileName env jobName reduceTask k) false,
                 Event.fatalf (fileName env jobName reduceTask k)],
               outcome := Outcome.exited 1, reduceKvs := kvs, result := [], out := none } := by
  obtain ⟨st1, ev, h1, h2, h3, h4⟩ :=
    mapLoop_fatal env jobName reduceTask k nMap.toNat 0 { reduceKvs := [], events := [] }
      (by omega) (fun j _ hj => hopen j (by omega)) (by simpa using hfail)
  have h1' : mapLoop env jobName reduceTask nMap.toNat 0 { reduceKvs := [], events := [] }
      = LoopEnd.fatal st1 := by simpa using h1
  refine ⟨ev, st1.reduceKvs, h3, by rw [h4, List.range_eq_range'], ?_⟩
  unfold doReduce
  simp only [h1']
  simp at h2
  simp [h2]

/-- The call of `doReduce` does not end when the intermediate file of map task `k` is
the first that is missing or unreadable, and it opens but its reads keep failing. -/
theorem doReduce_unreadable (env : Env) (jobName : GoString) (reduceTask : Int)
    (outFile : GoString) (nMap : Int) (reduceF : GoString → List GoString → GoString)
    (k : Nat) (h : UnreadableAt env jobName reduceTask nMap k) :
    doReduce env jobName reduceTask outFile nMap reduceF = none := by
  obtain ⟨hk, hopen, hsome, hfail⟩ := h
  have h1 := mapLoop_stuck env jobName reduceTask k nMap.toNat 0
    { reduceKvs := [], events := [] } (by omega) (fun j _ hj => hopen j (by omega))
    (by simpa using hsome) (by simpa using hfail)
  have h1' : mapLoop env jobName reduceTask nMap.toNat 0 { reduceKvs := [], events := [] }
      = LoopEnd.stuck := by simpa using h1
  unfold doReduce
  simp only [h1']

theorem reduceCalls_append (a b : List Event) :
    reduceCalls (a ++ b) = reduceCalls a ++ reduceCalls b := by
  simp [reduceCalls, List.filterMap_append]

theorem reduceCalls_of_not_reduce (a : List Event) (h : ∀ e ∈ a, e.isReduce = false) :
    reduceCalls a = [] := by
  unfold reduceCalls
  rw [List.filterMap_eq_nil_iff]
  intro e he
  have := h e he
  cases e <;> simp_all [Event.isReduce]

theorem reduceCalls_map (es : List (GoString × List GoString)) :
    reduceCalls (es.map (fun e => Event.reduceF e.1 e.2)) = es := by
  induction es with
  | nil => rfl
  | cons e es ih =>
    simp only [reduceCalls, List.map_cons, List.filterMap_cons] at ih ⊢
    rw [ih]

/-- The run of `doReduce` when every intermediate file is read: its maps and the three
phases of its events. -/
theorem doReduce_allOpen_run (env : Env) (jobName : GoString) (reduceTask : Int)
    (outFile : GoString) (nMap : Int) (reduceF : GoString → List GoString → GoString)
    (hopen : AllOpen env jobName reduceTask nMap) :
    ∃ (run : Run) (evR evW : List Event),
      doReduce env jobName reduceTask outFile nMap reduceF = some run ∧
      run.reduceKvs = (allRecords env jobName reduceTask nMap).foldl addRecord [] ∧
      run.result = (GoMap.range env.rangeKvs run.reduceKvs).map
        (fun e => (e.1, reduceF e.1 e.2)) ∧
      run.events = evR ++ (GoMap.range env.rangeKvs run.reduceKvs).map
        (fun e => Event.reduceF e.1 e.2) ++ evW ∧
      (∀ e ∈ evR, e.isRead = true) ∧
      (evR.filter Event.isClose).length = nMap.toNat ∧
      (∀ e ∈ evW, e.isRead = false ∧ e.isReduce = false) ∧
      (run.outcome = Outcome.returned ↔ (env.create outFile).isSome = true) := by
  obtain ⟨evR, hR, hC, hrun⟩ :=
    doReduce_allOpen env jobName reduceTask outFile nMap reduceF hopen
  cases hc : env.create outFile with
  | none =>
    rw [hc] at hrun
    refine ⟨_, evR, [Event.osCreate outFile false, Event.fatalf outFile], hrun, rfl, rfl, rfl,
      hR, hC, ?_, by simp⟩
    intro e he
    simp only [List.mem_cons, List.mem_singleton, List.not_mem_nil, or_false] at he
    rcases he with rfl | rfl <;> exact ⟨rfl, rfl⟩
  | some d =>
    obtain ⟨room, cf⟩ := d
    rw [hc] at hrun
    simp only at hrun
    obtain ⟨evs, h1, h2, _⟩ := writeLoop_events env.jsonRaw
      (GoMap.range env.rangeResult
        ((GoMap.range env.rangeKvs
          ((allRecords env jobName reduceTask nMap).foldl addRecord [])).map
          (fun e => (e.1, reduceF e.1 e.2))))
      (NewWriter { data := [], room := room, closeFails := cf })
      (evR ++
        (GoMap.range env.rangeKvs
          ((allRecords env jobName reduceTask nMap).foldl addRecord [])).map
          (fun e => Event.reduceF e.1 e.2) ++
        [Event.osCreate outFile true])
    generalize hwl : writeLoop _ _ _ _ = wl at hrun h1
    refine ⟨_, evR, [Event.osCreate outFile true] ++ evs ++
      [Event.flush wl.1.Flush.2, Event.outClose wl.1.Flush.1.wr.Close], hrun, rfl, rfl, ?_,
      hR, hC, ?_, by simp⟩
    · simp only
      rw [h1]
      simp only [List.append_assoc]
    · intro e he
      simp only [List.mem_append, List.mem_cons, List.mem_singleton, List.not_mem_nil,
        or_false] at he
      rcases he with (rfl | he) | rfl | rfl
      · exact ⟨rfl, rfl⟩
      · exact ⟨(h2 e he).2.1, (h2 e he).2.2⟩
      · exact ⟨rfl, rfl⟩
      · exact ⟨rfl, rfl⟩

/-! ## What the writing loop prints -/

theorem printedTexts_append (a b : List Event) :
    printedTexts (a ++ b) = printedTexts a ++ printedTexts b := by
  simp [printedTexts, List.filterMap_append]

theorem printedTexts_of_not_output (a : List Event) (h : ∀ e ∈ a, e.isOutput = false) :
    printedTexts a = [] := by
  unfold printedTexts
  rw [List.filterMap_eq_nil_iff]
  intro e he
  have := h e he
  cases e <;> simp_all [Event.isOutput, Event.printed]

theorem writeLoop_printed (raw : Bool) (es : List (GoString × GoString)) (w : Writer)
    (ev : List Event) :
    printedTexts (writeLoop raw es w ev).2
      = printedTexts ev ++ es.map (fun e => json.Marshal raw { Key := e.1, Value := e.2 }) := by
  induction es generalizing w ev with
  | nil => simp [writeLoop]
  | cons e es ih =>
    obtain ⟨k, v⟩ := e
    unfold writeLoop
    rcases hW : Fprintln w (json.Marshal raw { Key := k, Value := v }) with ⟨w1, n, err⟩
    simp only
    rw [ih, printedTexts_append]
    simp [printedTexts, Event.printed]

/-- The run of `doReduce` when every intermediate file is read and the output file is
created: it returns, and the texts it prints are the marshalled entries of `result` in
the order of the second `range` loop. -/
theorem doReduce_printed (env : Env) (jobName : GoString) (reduceTask : Int)
    (outFile : GoString) (nMap : Int) (reduceF : GoString → List GoString → GoString)
    (hopen : AllOpen env jobName reduceTask nMap)
    (hcreate : (env.create outFile).isSome = true) :
    ∃ run, doReduce env jobName reduceTask outFile nMap reduceF = some run ∧
      run.outcome = Outcome.returned ∧
      printedTexts run.events = (GoMap.range env.rangeResult run.result).map
        (fun e => json.Marshal env.jsonRaw { Key := e.1, Value := e.2 }) := by
  obtain ⟨evR, hR, _, hrun⟩ :=
    doReduce_allOpen env jobName reduceTask outFile nMap reduceF hopen
  cases hc : env.create outFile with
  | none => rw [hc] at hcreate; simp at hcreate
  | some d =>
    obtain ⟨room, cf⟩ := d
    rw [hc] at hrun
    refine ⟨_, hrun, rfl, ?_⟩
    simp only
    rw [printedTexts_append, writeLoop_printed, printedTexts_append, printedTexts_append,
      printedTexts_of_not_output evR
        (fun e he => (Event.not_reduce_of_isRead e (hR e he)).2.1),
      printedTexts_of_not_output _ (by
        intro e he
        obtain ⟨x, _, rfl⟩ := List.mem_map.1 he
        rfl)]
    simp [printedTexts, Event.printed]

/-! ## The three ways the reading phase goes -/

/-- Either every intermediate file can be opened and read to its end, or the first one
that cannot is missing, or the first one that cannot opens and its reads keep failing. -/
theorem input_trichotomy (env : Env) (jobName : GoString) (reduceTask : Int) (nMap : Int) :
    AllOpen env jobName reduceTask nMap ∨
      (∃ k, MissingAt env jobName reduceTask nMap k) ∨
      (∃ k, UnreadableAt env jobName reduceTask nMap k) := by
  classical
  by_cases hopen : AllOpen env jobName reduceTask nMap
  · exact Or.inl hopen
  · right
    have hbad : ∃ i : Nat, (i : Int) < nMap ∧
        ¬ ((env.openFile (fileName env jobName reduceTask i)).isSome = true ∧
          env.readFails (fileName env jobName reduceTask i) = false) := by
      unfold AllOpen at hopen
      push_neg at hopen
      obtain ⟨i, hi, hn⟩ := hopen
      exact ⟨i, hi, fun h => hn h.1 h.2⟩
    have hk := Nat.find_spec hbad
    have hmin : ReadableBefore env jobName reduceTask (Nat.find hbad) := by
      intro j hj
      have h := Nat.find_min hbad hj
      have hj2 : (j : Int) < nMap := by
        have := hk.1
        omega
      by_contra hc
      exact h ⟨hj2, hc⟩
    cases hc : env.openFile (fileName env jobName reduceTask (Nat.find hbad)) with
    | none => exact Or.inl ⟨Nat.find hbad, hk.1, hmin, hc⟩
    | some c =>
      refine Or.inr ⟨Nat.find hbad, hk.1, hmin, by rw [hc]; rfl, ?_⟩
      have h2 := hk.2
      rw [hc] at h2
      cases hr : env.readFails (fileName env jobName reduceTask (Nat.find hbad)) with
      | true => rfl
      | false => exact absurd ⟨rfl, hr⟩ h2

/-- The call of `doReduce` does not end exactly when the first intermediate file that is
missing or unreadable is one that opens and whose reads keep failing. -/
theorem doReduce_eq_none_iff (env : Env) (jobName : GoString) (reduceTask : Int)
    (outFile : GoString) (nMap : Int) (reduceF : GoString → List GoString → GoString) :
    doReduce env jobName reduceTask outFile nMap reduceF = none ↔
      ∃ k, UnreadableAt env jobName reduceTask nMap k := by
  constructor
  · intro hnone
    rcases input_trichotomy env jobName reduceTask nMap with hopen | ⟨k, hk, hb, hm⟩ | hu
    · obtain ⟨run, _, _, hrun, _⟩ :=
        doReduce_allOpen_run env jobName reduceTask outFile nMap reduceF hopen
      rw [hrun] at hnone
      exact absurd hnone (by simp)
    · obtain ⟨evR, kvs, _, _, hrun⟩ :=
        doReduce_notOpen env jobName reduceTask outFile nMap reduceF k hk hb hm
      rw [hrun] at hnone
      exact absurd hnone (by simp)
    · exact hu
  · rintro ⟨k, hk⟩
    exact doReduce_unreadable env jobName reduceTask outFile nMap reduceF k hk

/-! ## UTF-8 -/

theorem and_mask (a k : Nat) : a &&& (2 ^ k - 1) = a % 2 ^ k :=
  Nat.and_pow_two_sub_one_eq_mod a k

theorem or_add (i a b : Nat) (h : b < 2 ^ i) : (a * 2 ^ i) ||| b = a * 2 ^ i + b := by
  rw [Nat.mul_comm, Nat.mul_add_lt_is_or h]

theorem bits2 (a b : Nat) :
    ((a &&& 0x1F) <<< 6) ||| (b &&& 0x3F) = (a % 32) * 64 + b % 64 := by
  have h1 : a &&& 0x1F = a % 32 := and_mask a 5
  have h2 : b &&& 0x3F = b % 64 := and_mask b 6
  rw [h1, h2, Nat.shiftLeft_eq]
  exact or_add 6 _ _ (Nat.mod_lt _ (by norm_num))

theorem bits3 (a b c : Nat) :
    ((a &&& 0x0F) <<< 12) ||| ((b &&& 0x3F) <<< 6) ||| (c &&& 0x3F)
      = (a % 16) * 4096 + (b % 64) * 64 + c % 64 := by
  have h1 : a &&& 0x0F = a % 16 := and_mask a 4
  have h2 : b &&& 0x3F = b % 64 := and_mask b 6
  have h3 : c &&& 0x3F = c % 64 := and_mask c 6
  have hb := Nat.mod_lt b (show 64 > 0 by norm_num)
  have hc := Nat.mod_lt c (show 64 > 0 by norm_num)
  rw [h1, h2, h3, Nat.shiftLeft_eq, Nat.shiftLeft_eq]
  have e1 := or_add 12 (a % 16) (b % 64 * 2 ^ 6) (by omega)
  have e2 : a % 16 * 2 ^ 12 + b % 64 * 2 ^ 6 = (a % 16 * 64 + b % 64) * 2 ^ 6 := by ring
  have e3 := or_add 6 (a % 16 * 64 + b % 64) (c % 64) (by omega)
  rw [e1, e2, e3]
  ring

theorem bits4 (a b c d : Nat) :
    ((a &&& 0x07) <<< 18) ||| ((b &&& 0x3F) <<< 12) ||| ((c &&& 0x3F) <<< 6) ||| (d &&& 0x3F)
      = (a % 8) * 262144 + (b % 64) * 4096 + (c % 64) * 64 + d % 64 := by
  have h1 : a &&& 0x07 = a % 8 := and_mask a 3
  have h2 : b &&& 0x3F = b % 64 := and_mask b 6
  have h3 : c &&& 0x3F = c % 64 := and_mask c 6
  have h4 : d &&& 0x3F = d % 64 := and_mask d 6
  have hb := Nat.mod_lt b (show 64 > 0 by norm_num)
  have hc := Nat.mod_lt c (show 64 > 0 by norm_num)
  have hd := Nat.mod_lt d (show 64 > 0 by norm_num)
  rw [h1, h2, h3, h4, Nat.shiftLeft_eq, Nat.shiftLeft_eq, Nat.shiftLeft_eq]
  have e1 := or_add 18 (a % 8) (b % 64 * 2 ^ 12) (by omega)
  have e2 : a % 8 * 2 ^ 18 + b % 64 * 2 ^ 12 = (a % 8 * 64 + b % 64) * 2 ^ 12 := by ring
  have e3 := or_add 12 (a % 8 * 64 + b % 64) (c % 64 * 2 ^ 6) (by omega)
  have e4 : (a % 8 * 64 + b % 64) * 2 ^ 12 + c % 64 * 2 ^ 6
      = ((a % 8 * 64 + b % 64) * 64 + c % 64) * 2 ^ 6 := by ring
  have e5 := or_add 6 ((a % 8 * 64 + b % 64) * 64 + c % 64) (d % 64) (by omega)
  rw [e1, e2, e3, e4, e5]
  ring

theorem or_c0 (x : Nat) (h : x < 64) : 0xC0 ||| x = 192 + x := by
  have := or_add 6 3 x h
  simpa using this

theorem or_80 (x : Nat) (h : x < 128) : 0x80 ||| x = 128 + x := by
  have := or_add 7 1 x h
  simpa using this

theorem or_e0 (x : Nat) (h : x < 32) : 0xE0 ||| x = 224 + x := by
  have := or_add 5 7 x h
  simpa using this

theorem or_f0 (x : Nat) (h : x < 16) : 0xF0 ||| x = 240 + x := by
  have := or_add 4 15 x h
  simpa using this

theorem and_3f (x : Nat) : x &&& 0x3F = x % 64 := and_mask x 6

theorem and_0f (x : Nat) : x &&& 0xF = x % 16 := and_mask x 4

/-- `EncodeRune` in arithmetic. -/
theorem utf8.EncodeRune_eq (r : Nat) :
    utf8.EncodeRune r =
      if r ≤ 0x7F then [r]
      else if r ≤ 0x7FF then [192 + r / 64, 128 + r % 64]
      else if r < 0xD800 ∨ (0xDFFF < r ∧ r ≤ 0xFFFF) then
        [224 + r / 4096, 128 + r / 64 % 64, 128 + r % 64]
      else if 0xFFFF < r ∧ r ≤ 0x10FFFF then
        [240 + r / 262144, 128 + r / 4096 % 64, 128 + r / 64 % 64, 128 + r % 64]
      else [0xEF, 0xBF, 0xBD] := by
  unfold utf8.EncodeRune
  have m1 : r % 64 < 128 := by omega
  have m2 : r / 64 % 64 < 128 := by omega
  have m3 : r / 4096 % 64 < 128 := by omega
  simp only [Nat.shiftRight_eq_div_pow, and_3f]
  norm_num only
  by_cases h1 : r ≤ 127
  · simp [h1]
  · by_cases h2 : r ≤ 2047
    · simp only [h1, h2, if_true, if_false]
      rw [or_c0 _ (by omega), or_80 _ m1]
    · by_cases h3 : r < 55296 ∨ (57343 < r ∧ r ≤ 65535)
      · simp only [h1, h2, h3, if_true, if_false]
        rw [or_e0 _ (by omega), or_80 _ m2, or_80 _ m1]
      · by_cases h4 : 65535 < r ∧ r ≤ 1114111
        · simp only [h1, h2, h3, h4, if_true, if_false, and_self]
          rw [or_f0 _ (by omega), or_80 _ m3, or_80 _ m2, or_80 _ m1]
        · simp only [h1, h2, h3, h4, if_false]

/-- What `DecodeRune` returns on a non-empty input, case by case, in arithmetic. -/
theorem utf8.DecodeRune_cases (p : GoString) (hne : p ≠ []) :
    ((utf8.DecodeRune p).1 = utf8.RuneError ∧ (utf8.DecodeRune p).2 = 1) ∨
    (∃ b t, p = b :: t ∧ b < 128 ∧ utf8.DecodeRune p = (b, 1)) ∨
    (∃ s0 s1 t, p = s0 :: s1 :: t ∧ 194 ≤ s0 ∧ s0 ≤ 223 ∧ 128 ≤ s1 ∧ s1 ≤ 191 ∧
      ∀ t1, utf8.DecodeRune (s0 :: s1 :: t1) = (s0 % 32 * 64 + s1 % 64, 2)) ∨
    (∃ s0 s1 s2 t, p = s0 :: s1 :: s2 :: t ∧ 224 ≤ s0 ∧ s0 ≤ 239 ∧ 128 ≤ s1 ∧ s1 ≤ 191 ∧
      (s0 = 224 → 160 ≤ s1) ∧ (s0 = 237 → s1 ≤ 159) ∧ 128 ≤ s2 ∧ s2 ≤ 191 ∧
      ∀ t1, utf8.DecodeRune (s0 :: s1 :: s2 :: t1)
        = (s0 % 16 * 4096 + s1 % 64 * 64 + s2 % 64, 3)) ∨
    (∃ s0 s1 s2 s3 t, p = s0 :: s1 :: s2 :: s3 :: t ∧ 240 ≤ s0 ∧ s0 ≤ 244 ∧
      128 ≤ s1 ∧ s1 ≤ 191 ∧ (s0 = 240 → 144 ≤ s1) ∧ (s0 = 244 → s1 ≤ 143) ∧
      128 ≤ s2 ∧ s2 ≤ 191 ∧ 128 ≤ s3 ∧ s3 ≤ 191 ∧
      ∀ t1, utf8.DecodeRune (s0 :: s1 :: s2 :: s3 :: t1)
        = (s0 % 8 * 262144 + s1 % 64 * 4096 + s2 % 64 * 64 + s3 % 64, 4)) := by
  rcases p with _ | ⟨s0, t⟩
  · exact absurd rfl hne
  by_cases h0 : s0 < 128
  · right; left
    exact ⟨s0, t, rfl, h0, by simp [utf8.DecodeRune, utf8.RuneSelf, h0]⟩
  by_cases hlo : s0 < 194
  · left
    have : utf8.firstSize s0 = 0 := by simp [utf8.firstSize, h0, hlo]
    simp [utf8.DecodeRune, utf8.RuneSelf, h0, this]
  by_cases hhi : 244 < s0
  · left
    have : utf8.firstSize s0 = 0 := by
      unfold utf8.firstSize
      split_ifs
      all_goals omega
    simp [utf8.DecodeRune, utf8.RuneSelf, h0, this]
  rcases t with _ | ⟨s1, t1⟩
  · left
    unfold utf8.DecodeRune
    simp only [utf8.RuneSelf, h0, if_false]
    split_ifs <;> simp
  by_cases h2 : s0 < 224
  · -- two bytes
    have hsz : utf8.firstSize s0 = 2 := by
      unfold utf8.firstSize
      split_ifs
      all_goals omega
    have hacc : utf8.acceptRange s0 = (128, 191) := by
      unfold utf8.acceptRange utf8.locb utf8.hicb
      split_ifs
      all_goals first | rfl | omega
    by_cases hs1 : s1 < 128 ∨ 191 < s1
    · left
      simp [utf8.DecodeRune, utf8.RuneSelf, h0, hsz, hacc, hs1]
    · right; right; left
      refine ⟨s0, s1, t1, rfl, by omega, by omega, by omega, by omega, ?_⟩
      intro t9
      simp [utf8.DecodeRune, utf8.RuneSelf, h0, hsz, hacc, hs1, bits2]
  by_cases h3 : s0 < 240
  · -- three bytes
    have hsz : utf8.firstSize s0 = 3 := by
      unfold utf8.firstSize
      split_ifs
      all_goals omega
    have hacc : utf8.acceptRange s0
        = (if s0 = 224 then 160 else 128, if s0 = 237 then 159 else 191) := by
      unfold utf8.acceptRange utf8.locb utf8.hicb
      split_ifs
      all_goals first | rfl | omega
    rcases t1 with _ | ⟨s2, t2⟩
    · left
      simp [utf8.DecodeRune, utf8.RuneSelf, h0, hsz]
    by_cases hs1 : s1 < (if s0 = 224 then 160 else 128) ∨ (if s0 = 237 then 159 else 191) < s1
    · left
      simp [utf8.DecodeRune, utf8.RuneSelf, h0, hsz, hacc, hs1]
    by_cases hs2 : s2 < 128 ∨ 191 < s2
    · left
      simp [utf8.DecodeRune, utf8.RuneSelf, utf8.locb, utf8.hicb, h0, hsz, hacc, hs1, hs2]
    · right; right; right; left
      have b1 : 128 ≤ s1 ∧ s1 ≤ 191 ∧ (s0 = 224 → 160 ≤ s1) ∧ (s0 = 237 → s1 ≤ 159) := by
        split_ifs at hs1 <;> omega
      refine ⟨s0, s1, s2, t2, rfl, by omega, by omega, b1.1, b1.2.1, b1.2.2.1, b1.2.2.2,
        by omega, by omega, ?_⟩
      intro t9
      simp [utf8.DecodeRune, utf8.RuneSelf, utf8.locb, utf8.hicb, h0, hsz, hacc, hs1, hs2,
        bits3]
  · -- four bytes
    have hsz : utf8.firstSize s0 = 4 := by
      unfold utf8.firstSize
      split_ifs
      all_goals omega
    have hacc : utf8.acceptRange s0
        = (if s0 = 240 then 144 else 128, if s0 = 244 then 143 else 191) := by
      unfold utf8.acceptRange utf8.locb utf8.hicb
      split_ifs
      all_goals first | rfl | omega
    rcases t1 with _ | ⟨s2, t2⟩
    · left
      simp [utf8.DecodeRune, utf8.RuneSelf, h0, hsz]
    rcases t2 with _ | ⟨s3, t3⟩
    · left
      simp [utf8.DecodeRune, utf8.RuneSelf, h0, hsz]
    by_cases hs1 : s1 < (if s0 = 240 then 144 else 128) ∨ (if s0 = 244 then 143 else 191) < s1
    · left
      simp [utf8.DecodeRune, utf8.RuneSelf, h0, hsz, hacc, hs1]
    by_cases hs2 : s2 < 128 ∨ 191 < s2
    · left
      simp [utf8.DecodeRune, utf8.RuneSelf, utf8.locb, utf8.hicb, h0, hsz, hacc, hs1, hs2]
    by_cases hs3 : s3 < 128 ∨ 191 < s3
    · left
      simp [utf8.DecodeRune, utf8.RuneSelf, utf8.locb, utf8.hicb, h0, hsz, hacc, hs1, hs2, hs3]
    · right; right; right; right
      have b1 : 128 ≤ s1 ∧ s1 ≤ 191 ∧ (s0 = 240 → 144 ≤ s1) ∧ (s0 = 244 → s1 ≤ 143) := by
        split_ifs at hs1 <;> omega
      refine ⟨s0, s1, s2, s3, t3, rfl, by omega, by omega, b1.1, b1.2.1, b1.2.2.1, b1.2.2.2,
        by omega, by omega, by omega, by omega, ?_⟩
      intro t9
      simp [utf8.DecodeRune, utf8.RuneSelf, utf8.locb, utf8.hicb, h0, hsz, hacc, hs1, hs2,
        hs3, bits4]

/-- A valid multi-byte rune at the start of `p`: its bytes `enc`, which `EncodeRune`
gives back and which alone determine what `DecodeRune` returns. -/
theorem utf8.DecodeRune_valid (p : GoString) (b : Nat) (t : GoString) (hp : p = b :: t)
    (hb : ¬ b < 128)
    (hv : ¬ ((utf8.DecodeRune p).1 = utf8.RuneError ∧ (utf8.DecodeRune p).2 = 1)) :
    ∃ enc rest, p = enc ++ rest ∧ enc.length = (utf8.DecodeRune p).2 ∧ 2 ≤ enc.length ∧
      enc.length ≤ 4 ∧ (∀ c ∈ enc, 128 ≤ c) ∧
      utf8.EncodeRune (utf8.DecodeRune p).1 = enc ∧ 128 ≤ (utf8.DecodeRune p).1 ∧
      ¬ (0xD800 ≤ (utf8.DecodeRune p).1 ∧ (utf8.DecodeRune p).1 < 0xE000) ∧
      (∀ X, utf8.DecodeRune (enc ++ X) = utf8.DecodeRune p) := by
  have hne : p ≠ [] := by rw [hp]; simp
  rcases utf8.DecodeRune_cases p hne with h | ⟨b1, t1, h1, h2, _⟩ | ⟨s0, s1, t1, h1, a1, a2, a3, a4, hd⟩ |
    ⟨s0, s1, s2, t1, h1, a1, a2, a3, a4, a5, a6, a7, a8, hd⟩ |
    ⟨s0, s1, s2, s3, t1, h1, a1, a2, a3, a4, a5, a6, a7, a8, a9, a10, hd⟩
  · exact absurd h hv
  · rw [hp] at h1
    injection h1 with e1 _
    subst e1
    exact absurd h2 hb
  · refine ⟨[s0, s1], t1, by rw [h1]; rfl, by rw [h1, hd]; rfl, by simp, by simp, ?_, ?_, ?_, ?_, ?_⟩
    · intro c hc; simp at hc; omega
    · rw [h1, hd, utf8.EncodeRune_eq]
      simp only
      split_ifs
      all_goals first | omega | (simp only [List.cons.injEq, and_true]; omega)
    · rw [h1, hd]; simp only; omega
    · rw [h1, hd]; simp only; omega
    · intro X; rw [h1, hd, List.cons_append, List.cons_append, hd]
  · refine ⟨[s0, s1, s2], t1, by rw [h1]; rfl, by rw [h1, hd]; rfl, by simp, by simp, ?_, ?_, ?_, ?_, ?_⟩
    · intro c hc; simp at hc; omega
    · rw [h1, hd, utf8.EncodeRune_eq]
      simp only
      split_ifs
      all_goals first | omega | (simp only [List.cons.injEq, and_true]; omega)
    · rw [h1, hd]; simp only; omega
    · rw [h1, hd]; simp only; omega
    · intro X; rw [h1, hd, List.cons_append, List.cons_append, List.cons_append, hd]
  · refine ⟨[s0, s1, s2, s3], t1, by rw [h1]; rfl, by rw [h1, hd]; rfl, by simp, by simp, ?_, ?_, ?_, ?_, ?_⟩
    · intro c hc; simp at hc; omega
    · rw [h1, hd, utf8.EncodeRune_eq]
      simp only
      split_ifs
      all_goals first | omega | (simp only [List.cons.injEq, and_true]; omega)
    · rw [h1, hd]; simp only; omega
    · rw [h1, hd]; simp only; omega
    · intro X
      rw [h1, hd, List.cons_append, List.cons_append, List.cons_append, List.cons_append, hd]

/-! ## `json`: string literals -/

theorem utf8.DecodeRune_size_pos (p : GoString) (hne : p ≠ []) : 1 ≤ (utf8.DecodeRune p).2 := by
  rcases utf8.DecodeRune_cases p hne with h | ⟨b1, t1, h1, _, h2⟩ | ⟨s0, s1, t1, h1, _, _, _, _, hd⟩ |
    ⟨s0, s1, s2, t1, h1, _, _, _, _, _, _, _, _, hd⟩ |
    ⟨s0, s1, s2, s3, t1, h1, _, _, _, _, _, _, _, _, _, _, hd⟩
  · omega
  · rw [h2]
  · rw [h1, hd]; simp
  · rw [h1, hd]; simp
  · rw [h1, hd]; simp

theorem json.parseString_quote (fuel : Nat) (rest acc : GoString) :
    json.parseString (fuel + 1) (34 :: rest) acc = some (acc, rest) := by
  simp [json.parseString]

theorem json.parseString_plain (fuel c : Nat) (rest acc : GoString)
    (h1 : c ≠ 34) (h2 : c ≠ 92) (h3 : ¬ c < 32) (h4 : c < 128) :
    json.parseString (fuel + 1) (c :: rest) acc = json.parseString fuel rest (acc ++ [c]) := by
  simp [json.parseString, h1, h2, h3, h4, utf8.RuneSelf]

theorem json.hex_roundtrip : ∀ b, b < 128 →
    (json.isHex (json.hex (b >>> 4)) = true ∧ json.isHex (json.hex (b &&& 0xF)) = true ∧
      ((json.hexVal 48 * 16 + json.hexVal 48) * 16 + json.hexVal (json.hex (b >>> 4))) * 16
        + json.hexVal (json.hex (b &&& 0xF)) = b) := by
  decide

theorem json.parseString_escapeByte (fuel b : Nat) (rest acc : GoString) (hb : b < 128)
    (hs : json.htmlSafeSet b = false) :
    json.parseString (fuel + 1) (json.escapeByte b ++ rest) acc
      = json.parseString fuel rest (acc ++ [b]) := by
  unfold json.escapeByte
  by_cases h1 : b = 92 ∨ b = 34
  · rcases h1 with rfl | rfl <;> simp [json.parseString, json.unescape]
  by_cases h2 : b = 8
  · subst h2; simp [json.parseString, json.unescape]
  by_cases h3 : b = 12
  · subst h3; simp [json.parseString, json.unescape]
  by_cases h4 : b = 10
  · subst h4; simp [json.parseString, json.unescape]
  by_cases h5 : b = 13
  · subst h5; simp [json.parseString, json.unescape]
  by_cases h6 : b = 9
  · subst h6; simp [json.parseString, json.unescape]
  obtain ⟨x1, x2, x3⟩ := json.hex_roundtrip b hb
  have hx0 : json.isHex 48 = true := by decide
  have hsur : json.IsSurrogate b = false := by
    simp only [json.IsSurrogate, decide_eq_false_iff_not]
    omega
  have henc : utf8.EncodeRune b = [b] := by
    unfold utf8.EncodeRune
    simp [show b ≤ 127 by omega]
  simp only [h1, h2, h3, h4, h5, h6, if_false]
  simp [json.parseString, json.getu4, hx0, x1, x2, x3, hsur, henc]

theorem json.parseString_multibyte (fuel b : Nat) (t acc : GoString) (hb : ¬ b < 128) :
    json.parseString (fuel + 1) (b :: t) acc
      = json.parseString fuel ((b :: t).drop (utf8.DecodeRune (b :: t)).2)
          (acc ++ utf8.EncodeRune (utf8.DecodeRune (b :: t)).1) := by
  have h1 : b ≠ 34 := by omega
  have h2 : b ≠ 92 := by omega
  have h3 : ¬ b < 32 := by omega
  simp [json.parseString, h1, h2, h3, hb, utf8.RuneSelf]

theorem json.escapeByte_length (b : Nat) : 1 ≤ (json.escapeByte b).length := by
  unfold json.escapeByte
  split_ifs <;> simp

theorem json.appendStringAux_nil (raw : Bool) (n : Nat) : json.appendStringAux raw n [] = [] := by
  cases n <;> rfl

/-- A string literal written by `appendString` for a valid UTF-8 string is read back by
`parseString` as that string. -/
theorem json.parseString_appendStringAux (raw : Bool) (k : Nat) : ∀ (s : GoString),
    utf8.validAux k s = true → ∀ (n fuel : Nat) (rest acc : GoString), s.length ≤ n →
    (json.appendStringAux raw n s).length < fuel →
    json.parseString fuel (json.appendStringAux raw n s ++ 34 :: rest) acc = some (acc ++ s, rest) := by
  induction k with
  | zero =>
    intro s hv n fuel rest acc _ hf
    rcases s with _ | ⟨b, t⟩
    · obtain ⟨f, rfl⟩ : ∃ f, fuel = f + 1 := ⟨fuel - 1, by omega⟩
      simp [json.appendStringAux_nil, json.parseString_quote]
    · simp [utf8.validAux] at hv
  | succ k ih =>
    intro s hv n fuel rest acc hn hf
    rcases s with _ | ⟨b, t⟩
    · obtain ⟨f, rfl⟩ : ∃ f, fuel = f + 1 := ⟨fuel - 1, by omega⟩
      simp [json.appendStringAux_nil, json.parseString_quote]
    obtain ⟨n, rfl⟩ : ∃ m, n = m + 1 := ⟨n - 1, by simp at hn; omega⟩
    obtain ⟨f, rfl⟩ : ∃ f, fuel = f + 1 := ⟨fuel - 1, by omega⟩
    have hn1 : t.length ≤ n := by simpa using hn
    simp only [utf8.validAux] at hv
    by_cases hb : b < 128
    · have hd : utf8.DecodeRune (b :: t) = (b, 1) := by simp [utf8.DecodeRune, utf8.RuneSelf, hb]
      rw [hd] at hv
      have hvt : utf8.validAux k t = true := by
        simp only [List.drop_succ_cons, List.drop_zero] at hv
        split_ifs at hv
        exact hv
      by_cases hsafe : json.htmlSafeSet b = true
      · have hu : json.appendStringAux raw (n + 1) (b :: t) = b :: json.appendStringAux raw n t := by
          rw [json.appendStringAux]
          simp [hb, utf8.RuneSelf, hsafe]
        rw [hu] at hf ⊢
        simp only [json.htmlSafeSet, decide_eq_true_eq] at hsafe
        rw [List.cons_append, json.parseString_plain _ _ _ _ (by omega) (by omega) (by omega) hb,
          ih t hvt n f rest (acc ++ [b]) hn1 (by simpa using hf)]
        simp
      · have hsafe1 : json.htmlSafeSet b = false := by simpa using hsafe
        have hu : json.appendStringAux raw (n + 1) (b :: t)
            = json.escapeByte b ++ json.appendStringAux raw n t := by
          rw [json.appendStringAux]
          simp [hb, utf8.RuneSelf, hsafe1]
        rw [hu] at hf ⊢
        have hl := json.escapeByte_length b
        rw [List.append_assoc, json.parseString_escapeByte _ _ _ _ hb hsafe1,
          ih t hvt n f rest (acc ++ [b]) hn1 (by simp at hf; omega)]
        simp
    · have hv1 : ¬ ((utf8.DecodeRune (b :: t)).1 = utf8.RuneError ∧
          (utf8.DecodeRune (b :: t)).2 = 1) := by
        intro h
        simp [h] at hv
      have hv2 : utf8.validAux k ((b :: t).drop (utf8.DecodeRune (b :: t)).2) = true := by
        simpa [hv1] using hv
      obtain ⟨enc, rest1, hs, hlen, h2, h4, hge, henc, _, _, hX⟩ :=
        utf8.DecodeRune_valid (b :: t) b t rfl hb hv1
      have hdrop : (b :: t).drop (utf8.DecodeRune (b :: t)).2 = rest1 := by
        rw [← hlen, hs]; exact List.drop_left _ _
      have htake : (b :: t).take (utf8.DecodeRune (b :: t)).2 = enc := by
        rw [← hlen, hs]; exact List.take_left _ _
      have hd4 : utf8.DecodeRune ((b :: t).take 4) = utf8.DecodeRune (b :: t) := by
        rw [hs, List.take_append_eq_append_take, List.take_of_length_le h4, hX, ← hs]
      have hr1 : rest1.length ≤ n := by
        have := congrArg List.length hs
        simp at this
        omega
      rw [hdrop] at hv2
      obtain ⟨e0, enc1, he⟩ : ∃ e0 enc1, enc = e0 :: enc1 := by
        rcases enc with _ | ⟨e0, enc1⟩
        · simp at h2
        · exact ⟨e0, enc1, rfl⟩
      have he0 : e0 = b := by
        rw [he] at hs
        injection hs with h _
        exact h.symm
      by_cases hls : (utf8.DecodeRune (b :: t)).1 = 0x2028 ∨ (utf8.DecodeRune (b :: t)).1 = 0x2029
      · have hu : json.appendStringAux raw (n + 1) (b :: t)
            = [92, 117, 50, 48, 50, json.hex ((utf8.DecodeRune (b :: t)).1 &&& 0xF)] ++
                json.appendStringAux raw n rest1 := by
          rw [json.appendStringAux]
          simp only [hb, utf8.RuneSelf, if_false, hd4, hv1, hls, if_true, hdrop]
        rw [hu] at hf ⊢
        have hsur : json.IsSurrogate (utf8.DecodeRune (b :: t)).1 = false := by
          rcases hls with h | h <;> rw [h] <;> decide
        have hg : ∀ Y, json.getu4 ([92, 117, 50, 48, 50,
            json.hex ((utf8.DecodeRune (b :: t)).1 &&& 0xF)] ++ Y)
              = some (utf8.DecodeRune (b :: t)).1 := by
          intro Y
          rcases hls with h | h <;> rw [h] <;> rfl
        have hstep : ∀ Y, json.parseString (f + 1) ([92, 117, 50, 48, 50,
            json.hex ((utf8.DecodeRune (b :: t)).1 &&& 0xF)] ++ Y) acc
              = json.parseString f Y (acc ++ enc) := by
          intro Y
          have := hg Y
          simp only [List.cons_append, List.nil_append] at this ⊢
          simp [json.parseString, this, hsur, henc]
        rw [List.append_assoc, hstep,
          ih rest1 hv2 n f rest (acc ++ enc) hr1 (by simp at hf; omega), hs]
        simp
      · have hu : json.appendStringAux raw (n + 1) (b :: t) = enc ++ json.appendStringAux raw n rest1 := by
          rw [json.appendStringAux]
          simp only [hb, utf8.RuneSelf, if_false, hd4, hv1, hls, hdrop, htake]
        rw [hu] at hf ⊢
        have hstep : ∀ Y, json.parseString (f + 1) (enc ++ Y) acc
            = json.parseString f Y (acc ++ enc) := by
          intro Y
          have hXY := hX Y
          rw [he, he0] at hXY ⊢
          rw [List.cons_append, json.parseString_multibyte _ _ _ _ hb]
          rw [List.cons_append] at hXY
          rw [hXY, henc, ← hlen, he, he0, ← List.cons_append]
          rw [List.drop_left]
        rw [List.append_assoc, hstep,
          ih rest1 hv2 n f rest (acc ++ enc) hr1 (by simp at hf; omega), hs]
        simp

/-! ## `json`: a marshalled record -/

theorem json.parseString_literal (raw : Bool) (s : GoString) (hv : utf8.ValidString s = true)
    (rest : GoString) :
    json.parseString (json.appendStringAux raw s.length s ++ 34 :: rest).length
        (json.appendStringAux raw s.length s ++ 34 :: rest) []
      = some (s, rest) := by
  have := json.parseString_appendStringAux raw s.length s hv s.length
    (json.appendStringAux raw s.length s ++ 34 :: rest).length rest [] (le_refl _) (by simp)
  simpa using this

theorem json.parseValue_string (f depth : Nat) (s q rest : GoString)
    (h : json.parseString (q ++ 34 :: rest).length (q ++ 34 :: rest) [] = some (s, rest)) :
    json.parseValue (f + 1) depth (34 :: (q ++ 34 :: rest)) = some (json.Value.string s, rest) := by
  simp only [List.length_append, List.length_cons] at h
  simp [json.parseValue, json.skipSpace, json.isSpace, h]

theorem json.parseMembers_value (f depth : Nat) (v qv rest : GoString)
    (h : json.parseString (qv ++ 34 :: 125 :: rest).length (qv ++ 34 :: 125 :: rest) []
      = some (v, 125 :: rest)) :
    json.parseMembers (f + 2) depth
        (34 :: 86 :: 97 :: 108 :: 117 :: 101 :: 34 :: 58 :: 34 :: (qv ++ 34 :: 125 :: rest))
      = some ([([86, 97, 108, 117, 101], json.Value.string v)], rest) := by
  have hv := json.parseValue_string f depth v qv (125 :: rest) h
  simp [json.parseMembers, json.skipSpace, json.isSpace, json.parseString_plain,
    json.parseString_quote, hv]

theorem json.parseMembers_keyValue (f depth : Nat) (k v qk qv rest : GoString)
    (hk : ∀ r, json.parseString (qk ++ 34 :: r).length (qk ++ 34 :: r) [] = some (k, r))
    (hv : ∀ r, json.parseString (qv ++ 34 :: r).length (qv ++ 34 :: r) [] = some (v, r)) :
    json.parseMembers (f + 3) depth
        (34 :: 75 :: 101 :: 121 :: 34 :: 58 :: 34 :: (qk ++ 34 :: 44 ::
          34 :: 86 :: 97 :: 108 :: 117 :: 101 :: 34 :: 58 :: 34 :: (qv ++ 34 :: 125 :: rest)))
      = some ([([75, 101, 121], json.Value.string k),
          ([86, 97, 108, 117, 101], json.Value.string v)], rest) := by
  have h1 := json.parseValue_string (f + 1) depth k qk (44 ::
          34 :: 86 :: 97 :: 108 :: 117 :: 101 :: 34 :: 58 :: 34 :: (qv ++ 34 :: 125 :: rest))
          (hk _)
  have h2 := json.parseMembers_value f depth v qv rest (hv _)
  rw [json.parseMembers]
  simp [json.skipSpace, json.isSpace, json.parseString_plain,
    json.parseString_quote, h1, h2]

theorem json.parseValue_keyValue (f : Nat) (k v qk qv rest : GoString)
    (hk : ∀ r, json.parseString (qk ++ 34 :: r).length (qk ++ 34 :: r) [] = some (k, r))
    (hv : ∀ r, json.parseString (qv ++ 34 :: r).length (qv ++ 34 :: r) [] = some (v, r)) :
    json.parseValue (f + 4) 0
        (123 :: 34 :: 75 :: 101 :: 121 :: 34 :: 58 :: 34 :: (qk ++ 34 :: 44 ::
          34 :: 86 :: 97 :: 108 :: 117 :: 101 :: 34 :: 58 :: 34 :: (qv ++ 34 :: 125 :: rest)))
      = some (json.Value.object [([75, 101, 121], json.Value.string k),
          ([86, 97, 108, 117, 101], json.Value.string v)], rest) := by
  have hp := json.parseMembers_keyValue f 1 k v qk qv rest hk hv
  simp [json.parseValue, json.skipSpace, json.isSpace, json.maxNestingDepth, hp]

theorem json.Marshal_eq (raw : Bool) (kv : KeyValue) :
    json.Marshal raw kv = 123 :: 34 :: 75 :: 101 :: 121 :: 34 :: 58 :: 34 ::
      (json.appendStringAux raw kv.Key.length kv.Key ++ 34 :: 44 ::
        34 :: 86 :: 97 :: 108 :: 117 :: 101 :: 34 :: 58 :: 34 ::
          (json.appendStringAux raw kv.Value.length kv.Value ++ 34 :: 125 :: [])) := by
  simp [json.Marshal, json.appendString]

/-- `json.Unmarshal` reads back what `json.Marshal` wrote for a record of valid UTF-8
strings. -/
theorem json.Unmarshal_Marshal (raw : Bool) (kv : KeyValue) (hk : utf8.ValidString kv.Key = true)
    (hv : utf8.ValidString kv.Value = true) : json.Unmarshal (json.Marshal raw kv) = some kv := by
  have hpv := json.parseValue_keyValue ((json.Marshal raw kv).length - 3) kv.Key kv.Value
    (json.appendStringAux raw kv.Key.length kv.Key)
    (json.appendStringAux raw kv.Value.length kv.Value) []
    (json.parseString_literal raw kv.Key hk) (json.parseString_literal raw kv.Value hv)
  rw [← json.Marshal_eq] at hpv
  have hlen : (json.Marshal raw kv).length + 1 = ((json.Marshal raw kv).length - 3) + 4 := by
    have := congrArg List.length (json.Marshal_eq raw kv)
    simp at this
    omega
  unfold json.Unmarshal
  rw [hlen, hpv]
  simp [json.skipSpace, json.storeMembers, json.lookupField, json.storeString]

/-! ## Lines longer than the buffer -/

theorem takeWhile_eq_self_of_forall (l : GoString) (h : ∀ c ∈ l, c ≠ 10) :
    l.takeWhile (fun c => decide (c ≠ 10)) = l := by
  induction l with
  | nil => rfl
  | cons a l ih =>
    have ha : a ≠ 10 := h a (List.mem_cons_self _ _)
    simp only [List.takeWhile_cons, ha, ne_eq, not_false_eq_true, decide_True, if_true]
    rw [ih (fun c hc => h c (List.mem_cons_of_mem _ hc))]

theorem takeWhile_append_newline (l rest : GoString) (h : ∀ c ∈ l, c ≠ 10) :
    (l ++ 10 :: rest).takeWhile (fun c => decide (c ≠ 10)) = l := by
  induction l with
  | nil => simp
  | cons a l ih =>
    have ha : a ≠ 10 := h a (List.mem_cons_self _ _)
    simp only [List.cons_append, List.takeWhile_cons, ha, ne_eq, not_false_eq_true, decide_True,
      if_true]
    rw [ih (fun c hc => h c (List.mem_cons_of_mem _ hc))]

/-- `ReadLine` on a buffer-full of bytes without a newline: the whole buffer comes back
as a line with `isPrefix = true`. -/
theorem bufio.Reader.ReadLine_bufferFull (fl : Bool) (chunk rest : GoString)
    (hlen : chunk.length = defaultBufSize) (hnl : ∀ c ∈ chunk, c ≠ 10)
    (hcr : chunk.getLast? ≠ some 13) :
    ({ rest := chunk ++ rest, fails := fl } : Reader).ReadLine
      = (chunk, true, Err.nil, { rest := rest, fails := fl }) := by
  have htake : (chunk ++ rest).take defaultBufSize = chunk := by
    rw [← hlen]; exact List.take_left _ _
  have hdrop : (chunk ++ rest).drop defaultBufSize = rest := by
    rw [← hlen]; exact List.drop_left _ _
  unfold Reader.ReadLine Reader.ReadSlice
  simp only [htake, hdrop, takeWhile_eq_self_of_forall chunk hnl, lt_irrefl, if_false, hlen,
    le_refl, if_true, hcr]

/-- `ReadLine` on a line that fits into the buffer and ends in a newline. -/
theorem bufio.Reader.ReadLine_line (fl : Bool) (line rest : GoString)
    (hlen : line.length < defaultBufSize) (hnl : ∀ c ∈ line, c ≠ 10)
    (hcr : line.getLast? ≠ some 13) :
    ({ rest := line ++ 10 :: rest, fails := fl } : Reader).ReadLine
      = (line, false, Err.nil, { rest := rest, fails := fl }) := by
  have hsplit : line ++ 10 :: rest = (line ++ [10]) ++ rest := by simp
  have htw : ((line ++ 10 :: rest).take defaultBufSize).takeWhile (fun c => decide (c ≠ 10))
      = line := by
    have h1 : (line ++ 10 :: rest).take defaultBufSize
        = line ++ 10 :: rest.take (defaultBufSize - line.length - 1) := by
      rw [List.take_append_eq_append_take, List.take_of_length_le (by omega)]
      congr 1
      obtain ⟨m, hm⟩ : ∃ m, defaultBufSize - line.length = m + 1 :=
        ⟨defaultBufSize - line.length - 1, by omega⟩
      rw [hm, List.take_succ_cons]
      simp
    rw [h1]
    exact takeWhile_append_newline _ _ hnl
  have hwl : line.length < ((line ++ 10 :: rest).take defaultBufSize).length := by
    simp only [List.length_take, List.length_append, List.length_cons]
    omega
  have hdrop : (line ++ 10 :: rest).drop (line.length + 1) = rest := by
    rw [hsplit]
    have : (line ++ [10]).length = line.length + 1 := by simp
    rw [← this]
    exact List.drop_left _ _
  unfold Reader.ReadLine Reader.ReadSlice
  simp only [htw, hwl, if_true, hdrop]
  have e1 : (line ++ [10]).getLast? = some 10 := by simp
  have e2 : (line ++ [10]).dropLast = line := by simp
  simp [e1, e2, hcr]

theorem bufio.Reader.ReadLine_eof :
    ({ rest := [], fails := false } : Reader).ReadLine
      = ([], false, Err.EOF, { rest := [], fails := false }) := by
  decide

/-- The lines of a file that holds one line of a full buffer plus a rest that fits:
two pieces. -/
theorem fileLines_two_pieces (chunk line : GoString)
    (hlen : chunk.length = defaultBufSize) (hnl : ∀ c ∈ chunk, c ≠ 10)
    (hcr : chunk.getLast? ≠ some 13)
    (hlen2 : line.length < defaultBufSize) (hnl2 : ∀ c ∈ line, c ≠ 10)
    (hcr2 : line.getLast? ≠ some 13) (fuel : Nat) :
    ({ rest := chunk ++ (line ++ [10]), fails := false } : Reader).lines (fuel + 3)
      = [(chunk, true), (line, false)] := by
  have h1 := Reader.ReadLine_bufferFull false chunk (line ++ [10]) hlen hnl hcr
  have h2 := Reader.ReadLine_line false line [] hlen2 hnl2 hcr2
  have h3 := Reader.ReadLine_eof
  have e3 : ({ rest := [], fails := false } : Reader).lines (fuel + 1) = [] := by
    unfold Reader.lines
    rw [h3]
    simp
  have e2 : ({ rest := line ++ [10], fails := false } : Reader).lines (fuel + 2)
      = [(line, false)] := by
    unfold Reader.lines
    rw [h2]
    simp [e3]
  unfold Reader.lines
  rw [h1]
  simp [e2]

/-! ## `json`: a long record and its pieces -/

theorem json.appendStringAux_replicate (raw : Bool) (n m : Nat) (h : n ≤ m) :
    json.appendStringAux raw m (List.replicate n 97) = List.replicate n 97 := by
  induction n generalizing m with
  | zero => simp [json.appendStringAux_nil]
  | succ n ih =>
    obtain ⟨m, rfl⟩ : ∃ k, m = k + 1 := ⟨m - 1, by omega⟩
    rw [List.replicate_succ, json.appendStringAux]
    simp only [utf8.RuneSelf]
    have hs : json.htmlSafeSet 97 = true := by decide
    simp [hs, ih m (by omega)]

theorem json.Marshal_longRecord (raw : Bool) (n : Nat) :
    json.Marshal raw (longRecord n) = longHead ++ (List.replicate n 97 ++ [34, 125]) := by
  rw [json.Marshal_eq]
  have hk : json.appendStringAux raw (longRecord n).Key.length (longRecord n).Key = [107] := by
    simp only [longRecord]
    cases raw <;> decide
  have hv : json.appendStringAux raw (longRecord n).Value.length (longRecord n).Value
      = List.replicate n 97 := by
    simp only [longRecord, List.length_replicate]
    exact json.appendStringAux_replicate raw n n (le_refl _)
  rw [hk, hv]
  simp [longHead]

theorem json.parseString_replicate (m : Nat) : ∀ (fuel : Nat) (acc : GoString),
    json.parseString fuel (List.replicate m 97) acc = none := by
  induction m with
  | zero =>
    intro fuel acc
    cases fuel <;> simp [json.parseString]
  | succ m ih =>
    intro fuel acc
    cases fuel with
    | zero => simp [json.parseString]
    | succ fuel =>
      rw [List.replicate_succ,
        json.parseString_plain _ _ _ _ (by decide) (by decide) (by decide) (by decide)]
      exact ih _ _

/-- The first piece of a long line, cut inside the value, is not valid JSON: the string
literal never ends. -/
theorem json.Unmarshal_longHead (m : Nat) :
    json.Unmarshal (longHead ++ List.replicate m 97) = none := by
  have hlen : (longHead ++ List.replicate m 97).length + 1 = m + 17 + 4 := by
    simp [longHead]
  unfold json.Unmarshal
  rw [hlen]
  have hs := json.parseString_replicate m
  simp [longHead, json.parseValue, json.parseMembers, json.skipSpace, json.isSpace,
    json.maxNestingDepth, json.parseString_plain, json.parseString_quote, hs]

/-! ## `json`: a marshalled record holds no control byte -/

theorem json.hex_ge (x : Nat) : 32 ≤ json.hex x := by
  unfold json.hex
  split_ifs <;> omega

theorem json.escapeByte_ge (b : Nat) (hb : 32 ≤ b ∨ b < 32) :
    ∀ c ∈ json.escapeByte b, 32 ≤ c := by
  intro c hc
  have h1 := json.hex_ge (b >>> 4)
  have h2 := json.hex_ge (b &&& 0xF)
  unfold json.escapeByte at hc
  split_ifs at hc with g1 <;> simp at hc
  · rcases hc with rfl | rfl
    · omega
    · rcases g1 with rfl | rfl <;> omega
  all_goals omega

theorem json.appendStringAux_ge (raw : Bool) (n : Nat) : ∀ (s : GoString),
    ∀ c ∈ json.appendStringAux raw n s, 32 ≤ c := by
  induction n with
  | zero =>
    intro s c hc
    rcases s with _ | ⟨b, t⟩ <;> simp [json.appendStringAux] at hc
  | succ n ih =>
    intro s c hc
    rcases s with _ | ⟨b, t⟩
    · simp [json.appendStringAux] at hc
    rw [json.appendStringAux] at hc
    by_cases hb : b < utf8.RuneSelf
    · simp only [hb, if_true] at hc
      by_cases hsafe : json.htmlSafeSet b = true
      · simp only [hsafe, if_true, List.mem_cons] at hc
        rcases hc with rfl | hc
        · simp only [json.htmlSafeSet, decide_eq_true_eq] at hsafe
          omega
        · exact ih t c hc
      · simp only [hsafe, if_false, List.mem_append, Bool.false_eq_true] at hc
        rcases hc with hc | hc
        · exact json.escapeByte_ge b (by omega) c hc
        · exact ih t c hc
    · simp only [hb, if_false] at hc
      by_cases herr : (utf8.DecodeRune ((b :: t).take 4)).1 = utf8.RuneError ∧
          (utf8.DecodeRune ((b :: t).take 4)).2 = 1
      · simp only [herr, and_self, if_true, List.mem_append] at hc
        rcases hc with hc | hc
        · unfold json.replacement at hc
          split_ifs at hc <;> simp at hc <;> omega
        · exact ih t c hc
      · simp only [herr, if_false] at hc
        by_cases hls : (utf8.DecodeRune ((b :: t).take 4)).1 = 0x2028 ∨
            (utf8.DecodeRune ((b :: t).take 4)).1 = 0x2029
        · simp only [hls, if_true, List.mem_append] at hc
          have h2 := json.hex_ge ((utf8.DecodeRune ((b :: t).take 4)).1 &&& 0xF)
          rcases hc with hc | hc
          · simp only [List.mem_cons, List.not_mem_nil, or_false] at hc
            rcases hc with rfl | rfl | rfl | rfl | rfl | rfl
            all_goals omega
          · exact ih _ c hc
        · simp only [hls, if_false, List.mem_append] at hc
          rcases hc with hc | hc
          · have hb1 : ¬ b < 128 := hb
            obtain ⟨enc, rest1, hs, hlen, _, h4, hge, _⟩ :=
              utf8.DecodeRune_valid ((b :: t).take 4) b (t.take 3) (by simp) hb1 herr
            have htake : (b :: t).take (utf8.DecodeRune ((b :: t).take 4)).2 = enc := by
              rw [← hlen]
              have : enc.length = min enc.length 4 := by omega
              rw [this, ← List.take_take, hs, List.take_left]
            rw [htake] at hc
            have := hge c hc
            omega
          · exact ih _ c hc

/-- The text `json.Marshal` gives for a record holds no byte below 32: no newline, no
carriage return. -/
theorem json.Marshal_ge (raw : Bool) (kv : KeyValue) : ∀ c ∈ json.Marshal raw kv, 32 ≤ c := by
  intro c hc
  rw [json.Marshal_eq] at hc
  have hk := json.appendStringAux_ge raw kv.Key.length kv.Key c
  have hv := json.appendStringAux_ge raw kv.Value.length kv.Value c
  simp only [List.mem_cons, List.mem_append, List.not_mem_nil, or_false] at hc
  rcases hc with h | h | h | h | h | h | h | h | h | h | h | h | h | h | h | h | h | h | h | h |
    h | h | h
  all_goals first | omega | exact hk h | exact hv h

theorem utf8.validAux_replicate (n : Nat) : ∀ k, n ≤ k →
    utf8.validAux k (List.replicate n 97) = true := by
  induction n with
  | zero => intro k _; cases k <;> rfl
  | succ n ih =>
    intro k hk
    obtain ⟨k, rfl⟩ : ∃ m, k = m + 1 := ⟨k - 1, by omega⟩
    rw [List.replicate_succ, utf8.validAux]
    have hd : utf8.DecodeRune (97 :: List.replicate n 97) = (97, 1) := by
      simp [utf8.DecodeRune, utf8.RuneSelf]
    simp only [hd]
    simp [utf8.RuneError, ih k (by omega)]

/-! ## A record followed by white space -/

theorem json.skipSpace_replicate (n : Nat) (r : GoString) :
    json.skipSpace (List.replicate n 32 ++ r) = json.skipSpace r := by
  induction n with
  | zero => rfl
  | succ n ih =>
    rw [List.replicate_succ, List.cons_append, json.skipSpace]
    simp [json.isSpace, ih]

theorem json.Marshal_append (raw : Bool) (kv : KeyValue) (rest : GoString) :
    json.Marshal raw kv ++ rest = 123 :: 34 :: 75 :: 101 :: 121 :: 34 :: 58 :: 34 ::
      (json.appendStringAux raw kv.Key.length kv.Key ++ 34 :: 44 ::
        34 :: 86 :: 97 :: 108 :: 117 :: 101 :: 34 :: 58 :: 34 ::
          (json.appendStringAux raw kv.Value.length kv.Value ++ 34 :: 125 :: rest)) := by
  rw [json.Marshal_eq]
  simp

/-- What `json.Unmarshal` parses from a marshalled record of valid UTF-8 strings that is
followed by more bytes: the object, and the bytes that follow. -/
theorem json.parseValue_Marshal (raw : Bool) (kv : KeyValue)
    (hk : utf8.ValidString kv.Key = true) (hv : utf8.ValidString kv.Value = true)
    (rest : GoString) :
    json.parseValue ((json.Marshal raw kv ++ rest).length + 1) 0 (json.Marshal raw kv ++ rest)
      = some (json.Value.object [([75, 101, 121], json.Value.string kv.Key),
          ([86, 97, 108, 117, 101], json.Value.string kv.Value)], rest) := by
  have hpv := json.parseValue_keyValue ((json.Marshal raw kv ++ rest).length - 3) kv.Key
    kv.Value (json.appendStringAux raw kv.Key.length kv.Key)
    (json.appendStringAux raw kv.Value.length kv.Value) rest
    (json.parseString_literal raw kv.Key hk) (json.parseString_literal raw kv.Value hv)
  rw [← json.Marshal_append] at hpv
  have hlen : (json.Marshal raw kv ++ rest).length + 1
      = ((json.Marshal raw kv ++ rest).length - 3) + 4 := by
    have h3 : 3 ≤ (json.Marshal raw kv ++ rest).length := by
      rw [json.Marshal_append]
      simp only [List.length_cons]
      omega
    omega
  rw [hlen, hpv]

/-- White space after a record is accepted, a letter after it is not. -/
theorem json.Unmarshal_Marshal_padded (raw : Bool) (kv : KeyValue)
    (hk : utf8.ValidString kv.Key = true) (hv : utf8.ValidString kv.Value = true) (n : Nat) :
    json.Unmarshal (json.Marshal raw kv ++ List.replicate n 32) = some kv ∧
    json.Unmarshal (json.Marshal raw kv ++ (List.replicate n 32 ++ [120])) = none := by
  constructor
  · unfold json.Unmarshal
    rw [json.parseValue_Marshal raw kv hk hv]
    have hs : json.skipSpace (List.replicate n 32) = [] := by
      have := json.skipSpace_replicate n []
      simpa [json.skipSpace] using this
    simp [hs, json.storeMembers, json.lookupField, json.storeString]
  · unfold json.Unmarshal
    rw [json.parseValue_Marshal raw kv hk hv]
    have hs : json.skipSpace (List.replicate n 32 ++ [120]) = [120] := by
      rw [json.skipSpace_replicate]
      decide
    simp [hs]

/-! ## Text lines -/

theorem textLines_single (l : GoString) (h : ∀ c ∈ l, c ≠ 10) :
    textLines (l ++ [10]) = [l] := by
  induction l with
  | nil => simp [textLines]
  | cons a l ih =>
    have ha : a ≠ 10 := h a (List.mem_cons_self _ _)
    rw [List.cons_append, textLines]
    simp only [ha, if_false]
    rw [ih (fun c hc => h c (List.mem_cons_of_mem _ hc))]

/-! ## Missing input (C4) -/

/-- C4. If one of the `nMap` expected intermediate files cannot be opened, and the reads
of the expected files do not fail, `doReduce` fails: it ends the process with status 1
at the first such file `i0` (the files before it were opened and read, no later file is
touched), it never calls `reduceF`, and it never creates, writes, flushes or closes the
output file, whatever the files hold. -/
theorem doReduce_missing_input (env : Env) (jobName : GoString) (reduceTask : Int)
    (outFile : GoString) (nMap : Int) (reduceF : GoString → List GoString → GoString)
    (hmiss : ∃ i : Nat, (i : Int) < nMap ∧
      env.openFile (fileName env jobName reduceTask i) = none)
    (hread : ∀ i : Nat, (i : Int) < nMap →
      env.readFails (fileName env jobName reduceTask i) = false) :
    ∃ (run : Run) (i0 : Nat),
      doReduce env jobName reduceTask outFile nMap reduceF = some run ∧
      run.outcome = Outcome.exited 1 ∧
      run.out = none ∧
      (∀ e ∈ run.events, e.isReduce = false ∧ e.isOutput = false) ∧
      (i0 : Int) < nMap ∧
      env.openFile (fileName env jobName reduceTask i0) = none ∧
      (∀ j, j < i0 → (env.openFile (fileName env jobName reduceTask j)).isSome = true) ∧
      run.events.filterMap Event.openName
        = (List.range (i0 + 1)).map (fun j => fileName env jobName reduceTask j) ∧
      run.events.getLast? = some (Event.fatalf (fileName env jobName reduceTask i0)) := by
  classical
  have hk := Nat.find_spec hmiss
  have hmin : ReadableBefore env jobName reduceTask (Nat.find hmiss) := by
    intro j hj
    have h := Nat.find_min hmiss hj
    have hj2 : (j : Int) < nMap := by
      have := hk.1
      omega
    refine ⟨?_, hread j hj2⟩
    cases hc : env.openFile (fileName env jobName reduceTask j) with
    | none => exact absurd ⟨hj2, hc⟩ h
    | some c => rfl
  obtain ⟨evR, kvs, hr, hn, hrun⟩ :=
    doReduce_notOpen env jobName reduceTask outFile nMap reduceF (Nat.find hmiss) hk.1 hmin hk.2
  refine ⟨_, Nat.find hmiss, hrun, rfl, rfl, ?_, hk.1, hk.2, fun j hj => (hmin j hj).1, ?_, ?_⟩
  · intro e he
    simp only [List.mem_append, List.mem_cons, List.mem_singleton, List.not_mem_nil,
      or_false] at he
    rcases he with he | rfl | rfl
    · exact ⟨(Event.not_reduce_of_isRead e (hr e he)).1,
        (Event.not_reduce_of_isRead e (hr e he)).2.1⟩
    · exact ⟨rfl, rfl⟩
    · exact ⟨rfl, rfl⟩
  · simp [List.filterMap_append, hn, Event.openName, List.range_succ]
  · simp [List.getLast?_append]

/-- C4, at a concrete input: the file of map task 0 opens, the file of map task 1 does
not. -/
theorem doReduce_missing_input_witness :
    (∃ i : Nat, (i : Int) < 2 ∧
      envSecondMissing.openFile (fileName envSecondMissing [106] 0 i) = none) ∧
    (∀ i : Nat, (i : Int) < 2 →
      envSecondMissing.readFails (fileName envSecondMissing [106] 0 i) = false) ∧
    ∃ (run : Run) (i0 : Nat),
      doReduce envSecondMissing [106] 0 [111] 2 joinValues = some run ∧
      run.outcome = Outcome.exited 1 ∧
      run.out = none ∧
      (∀ e ∈ run.events, e.isReduce = false ∧ e.isOutput = false) ∧
      (i0 : Int) < 2 ∧
      envSecondMissing.openFile (fileName envSecondMissing [106] 0 i0) = none ∧
      (∀ j, j < i0 →
        (envSecondMissing.openFile (fileName envSecondMissing [106] 0 j)).isSome = true) ∧
      run.events.filterMap Event.openName
        = (List.range (i0 + 1)).map (fun j => fileName envSecondMissing [106] 0 j) ∧
      run.events.getLast? = some (Event.fatalf (fileName envSecondMissing [106] 0 i0)) :=
  ⟨⟨1, by decide, by decide⟩, fun _ _ => rfl,
    doReduce_missing_input envSecondMissing [106] 0 [111] 2 joinValues
      ⟨1, by decide, by decide⟩ (fun _ _ => rfl)⟩

/-! ## Fatal conditions (C6) -/

/-- C6, refuted as stated: with an intermediate file that cannot be opened, the call
does not return a failure to its caller; `log.Fatalf` ends the process with status 1. -/
theorem doReduce_fatal_exits_process :
    envSecondMissing.openFile (fileName envSecondMissing [106] 0 1) = none ∧
    (doReduce envSecondMissing [106] 0 [111] 2 joinValues).map (fun r => r.outcome)
      = some (Outcome.exited 1) ∧
    envNoCreate.create [111] = none ∧
    (doReduce envNoCreate [106] 0 [111] 2 joinValues).map (fun r => r.outcome)
      = some (Outcome.exited 1) := by
  decide

/-- C6, amended. A call of `doReduce` goes one of three ways. It ends the whole process
with status 1 (through `log.Fatalf`) exactly when the reading reaches an intermediate
file that cannot be opened, or every intermediate file is read and the output file
cannot be created. It returns to its caller exactly when every intermediate file can be
opened and read to its end and the output file can be created. It does not end exactly
when the reading reaches an intermediate file that opens but whose reads keep failing.
No fatal condition is handed to the caller. -/
theorem doReduce_fatal_iff (env : Env) (jobName : GoString) (reduceTask : Int)
    (outFile : GoString) (nMap : Int) (reduceF : GoString → List GoString → GoString) :
    ((∃ run, doReduce env jobName reduceTask outFile nMap reduceF = some run ∧
        run.outcome = Outcome.exited 1) ↔
      ((∃ k, MissingAt env jobName reduceTask nMap k) ∨
        (AllOpen env jobName reduceTask nMap ∧ env.create outFile = none))) ∧
    ((∃ run, doReduce env jobName reduceTask outFile nMap reduceF = some run ∧
        run.outcome = Outcome.returned) ↔
      (AllOpen env jobName reduceTask nMap ∧ (env.create outFile).isSome = true)) ∧
    (doReduce env jobName reduceTask outFile nMap reduceF = none ↔
      ∃ k, UnreadableAt env jobName reduceTask nMap k) ∧
    ((∃ run, doReduce env jobName reduceTask outFile nMap reduceF = some run ∧
        (run.outcome = Outcome.exited 1 ∨ run.outcome = Outcome.returned)) ∨
      doReduce env jobName reduceTask outFile nMap reduceF = none) := by
  have hA : AllOpen env jobName reduceTask nMap → env.create outFile = none →
      ∃ run, doReduce env jobName reduceTask outFile nMap reduceF = some run ∧
        run.outcome = Outcome.exited 1 := by
    intro hopen hc
    obtain ⟨evR, _, _, hrun⟩ :=
      doReduce_allOpen env jobName reduceTask outFile nMap reduceF hopen
    rw [hc] at hrun
    exact ⟨_, hrun, rfl⟩
  have hB : AllOpen env jobName reduceTask nMap → (env.create outFile).isSome = true →
      ∃ run, doReduce env jobName reduceTask outFile nMap reduceF = some run ∧
        run.outcome = Outcome.returned := by
    intro hopen hc
    obtain ⟨evR, _, _, hrun⟩ :=
      doReduce_allOpen env jobName reduceTask outFile nMap reduceF hopen
    cases hd : env.create outFile with
    | none => rw [hd] at hc; simp at hc
    | some d =>
      obtain ⟨room, cf⟩ := d
      rw [hd] at hrun
      exact ⟨_, hrun, rfl⟩
  have hM : ∀ k, MissingAt env jobName reduceTask nMap k →
      ∃ run, doReduce env jobName reduceTask outFile nMap reduceF = some run ∧
        run.outcome = Outcome.exited 1 := by
    rintro k ⟨hk, hb, hm⟩
    obtain ⟨evR, kvs, _, _, hrun⟩ :=
      doReduce_notOpen env jobName reduceTask outFile nMap reduceF k hk hb hm
    exact ⟨_, hrun, rfl⟩
  have hU := doReduce_unreadable env jobName reduceTask outFile nMap reduceF
  have hcr : env.create outFile = none ∨ (env.create outFile).isSome = true := by
    cases env.create outFile <;> simp
  have hne : Outcome.exited 1 ≠ Outcome.returned := by decide
  refine ⟨⟨?_, ?_⟩, ⟨?_, ?_⟩, doReduce_eq_none_iff env jobName reduceTask outFile nMap reduceF,
    ?_⟩
  · rintro ⟨run, hrun, hout⟩
    rcases input_trichotomy env jobName reduceTask nMap with hopen | hmiss | ⟨k, hk⟩
    · rcases hcr with hc | hc
      · exact Or.inr ⟨hopen, hc⟩
      · obtain ⟨run1, hrun1, hout1⟩ := hB hopen hc
        rw [hrun] at hrun1
        cases hrun1
        rw [hout] at hout1
        exact absurd hout1 hne
    · exact Or.inl hmiss
    · rw [hU k hk] at hrun
      exact absurd hrun (by simp)
  · rintro (⟨k, hk⟩ | ⟨hopen, hc⟩)
    · exact hM k hk
    · exact hA hopen hc
  · rintro ⟨run, hrun, hout⟩
    rcases input_trichotomy env jobName reduceTask nMap with hopen | ⟨k, hk⟩ | ⟨k, hk⟩
    · rcases hcr with hc | hc
      · obtain ⟨run1, hrun1, hout1⟩ := hA hopen hc
        rw [hrun] at hrun1
        cases hrun1
        rw [hout] at hout1
        exact absurd hout1.symm hne
      · exact ⟨hopen, hc⟩
    · obtain ⟨run1, hrun1, hout1⟩ := hM k hk
      rw [hrun] at hrun1
      cases hrun1
      rw [hout] at hout1
      exact absurd hout1.symm hne
    · rw [hU k hk] at hrun
      exact absurd hrun (by simp)
  · rintro ⟨hopen, hc⟩
    exact hB hopen hc
  · rcases input_trichotomy env jobName reduceTask nMap with hopen | ⟨k, hk⟩ | ⟨k, hk⟩
    · rcases hcr with hc | hc
      · obtain ⟨run, hrun, hout⟩ := hA hopen hc
        exact Or.inl ⟨run, hrun, Or.inl hout⟩
      · obtain ⟨run, hrun, hout⟩ := hB hopen hc
        exact Or.inl ⟨run, hrun, Or.inr hout⟩
    · obtain ⟨run, hrun, hout⟩ := hM k hk
      exact Or.inl ⟨run, hrun, Or.inl hout⟩
    · exact Or.inr (hU k hk)

/-- C6, amended, at three concrete inputs, one for each way: a missing file, files and a
device that are all in order, and a file that opens but cannot be read. -/
theorem doReduce_fatal_iff_witness :
    (∃ run, doReduce envSecondMissing [106] 0 [111] 2 joinValues = some run ∧
      run.outcome = Outcome.exited 1) ∧
    (∃ run, doReduce envBA [106] 0 [111] 2 joinValues = some run ∧
      run.outcome = Outcome.returned) ∧
    doReduce envUnreadable [106] 0 [111] 2 joinValues = none :=
  ⟨(doReduce_fatal_iff envSecondMissing [106] 0 [111] 2 joinValues).1.mpr
      (Or.inl ⟨1, by decide, fun j hj => ⟨by interval_cases j; decide, rfl⟩, by decide⟩),
    (doReduce_fatal_iff envBA [106] 0 [111] 2 joinValues).2.1.mpr
      ⟨fun _ _ => ⟨rfl, rfl⟩, rfl⟩,
    (doReduce_fatal_iff envUnreadable [106] 0 [111] 2 joinValues).2.2.1.mpr
      ⟨0, by decide, fun j hj => absurd hj (Nat.not_lt_zero j), rfl, rfl⟩⟩

/-! ## Write errors (C7) -/

/-- C7, refuted as stated: on a full device the flush fails with `ENOSPC` and the output
file stays empty, yet `doReduce` returns normally, exactly as it does on a device that
takes every byte. -/
theorem doReduce_flush_error_unreported :
    (doReduce envDiskFull [106] 0 [111] 1 joinValues).map
        (fun r => (r.outcome, decide (Event.flush Err.ENOSPC ∈ r.events),
          r.out.map (fun o => o.data)))
      = some (Outcome.returned, true, some []) ∧
    (doReduce envBA [106] 0 [111] 1 joinValues).map
        (fun r => (r.outcome, decide (∀ e ∈ r.events, e.writeErr = Err.nil)))
      = some (Outcome.returned, true) := by
  decide

/-- C7, amended. The errors of the record writes, of the flush and of the close are
discarded: whenever every intermediate file opens and is read to its end and the output
file is created, `doReduce` returns normally whatever the device does, with the same
outcome and the same maps as on a device on which nothing fails. -/
theorem doReduce_write_errors_discarded (env : Env) (jobName : GoString) (reduceTask : Int)
    (outFile : GoString) (nMap : Int) (reduceF : GoString → List GoString → GoString)
    (hopen : AllOpen env jobName reduceTask nMap)
    (hcreate : (env.create outFile).isSome = true) :
    ∃ run run1, doReduce env jobName reduceTask outFile nMap reduceF = some run ∧
      doReduce { env with create := fun _ => some (none, false) } jobName reduceTask outFile
        nMap reduceF = some run1 ∧
      run.outcome = Outcome.returned ∧ run1.outcome = Outcome.returned ∧
      run.reduceKvs = run1.reduceKvs ∧ run.result = run1.result := by
  obtain ⟨evR, _, _, hrun⟩ := doReduce_allOpen env jobName reduceTask outFile nMap reduceF hopen
  obtain ⟨evR1, _, _, hrun1⟩ := doReduce_allOpen { env with create := fun _ => some (none, false) }
    jobName reduceTask outFile nMap reduceF hopen
  cases hc : env.create outFile with
  | none => rw [hc] at hcreate; simp at hcreate
  | some d =>
    obtain ⟨room, cf⟩ := d
    rw [hc] at hrun
    exact ⟨_, _, hrun, hrun1, rfl, rfl, rfl, rfl⟩

/-- C7, amended, at a concrete input: the full device. -/
theorem doReduce_write_errors_discarded_witness :
    AllOpen envDiskFull [106] 0 1 ∧ (envDiskFull.create [111]).isSome = true ∧
    ∃ run run1, doReduce envDiskFull [106] 0 [111] 1 joinValues = some run ∧
      doReduce { envDiskFull with create := fun _ => some (none, false) } [106] 0 [111] 1
        joinValues = some run1 ∧
      run.outcome = Outcome.returned ∧ run1.outcome = Outcome.returned ∧
      run.reduceKvs = run1.reduceKvs ∧ run.result = run1.result :=
  ⟨fun _ _ => ⟨rfl, rfl⟩, rfl,
    doReduce_write_errors_discarded envDiskFull [106] 0 [111] 1 joinValues
      (fun _ _ => ⟨rfl, rfl⟩) rfl⟩

/-! ## Key order (C9) -/

/-- C9, on the code: with the records `("b","1")`, `("a","2")` in the one intermediate
file and a `range` order that visits the keys as they were inserted, `reduceF` is called
for `b` before `a` and the output file holds the line of `b` before the line of `a`:
nothing is sorted. -/
theorem doReduce_does_not_sort :
    (doReduce envBA [106] 0 [111] 1 joinValues).map
        (fun r => (reduceCalls r.events, r.out.map (fun o => o.data)))
      = some ([([98], [[49]]), ([97], [[50]])],
          some (outputText false [{ Key := [98], Value := [49] }, { Key := [97], Value := [50] }])) := by
  decide

/-! ## Grouping (C2, C3, C5) -/

/-- C2. When every intermediate file opens and is read, the value sequence `doReduce`
builds for a key `k`, holds in `reduceKvs` and hands to `reduceF` is `valuesOf k` of
`allRecords`: the values of the successfully decoded records with key `k`, file 0 first, then file 1,
up to file `nMap - 1`, within a file in line order, each value once. -/
theorem doReduce_values_in_order (env : Env) (jobName : GoString) (reduceTask : Int)
    (outFile : GoString) (nMap : Int) (reduceF : GoString → List GoString → GoString)
    (hopen : AllOpen env jobName reduceTask nMap) :
    ∃ run, doReduce env jobName reduceTask outFile nMap reduceF = some run ∧
      (∀ k, GoMap.index run.reduceKvs k
        = valuesOf k (allRecords env jobName reduceTask nMap)) ∧
      (∀ k vs, (k, vs) ∈ run.reduceKvs →
        vs = valuesOf k (allRecords env jobName reduceTask nMap)) ∧
      (∀ k vs, (k, vs) ∈ reduceCalls run.events →
        vs = valuesOf k (allRecords env jobName reduceTask nMap)) := by
  obtain ⟨run, evR, evW, hrun, hkvs, _, hev, hR, _, hW, _⟩ :=
    doReduce_allOpen_run env jobName reduceTask outFile nMap reduceF hopen
  have hidx : ∀ k, GoMap.index run.reduceKvs k
      = valuesOf k (allRecords env jobName reduceTask nMap) := by
    intro k
    rw [hkvs, foldl_addRecord_index]
    simp [GoMap.index]
  have hnd : (GoMap.keys run.reduceKvs).Nodup := by
    rw [hkvs]; exact allRecords_nodup_keys env jobName reduceTask nMap
  have hmem : ∀ k vs, (k, vs) ∈ run.reduceKvs →
      vs = valuesOf k (allRecords env jobName reduceTask nMap) := by
    intro k vs h
    rw [← hidx k, GoMap.index_of_mem _ _ _ hnd h]
  refine ⟨run, hrun, hidx, hmem, ?_⟩
  intro k vs h
  rw [hev, reduceCalls_append, reduceCalls_append,
    reduceCalls_of_not_reduce evR (fun e he => (Event.not_reduce_of_isRead e (hR e he)).1),
    reduceCalls_of_not_reduce evW (fun e he => (hW e he).2), reduceCalls_map] at h
  simp only [List.nil_append, List.append_nil] at h
  exact hmem k vs ((env.rangeKvs.perm _ _).mem_iff.mp h)

/-- C2, at the example of the spec. -/
theorem doReduce_values_in_order_witness :
    AllOpen envSpecExample [106] 0 2 ∧
    ∃ run, doReduce envSpecExample [106] 0 [111] 2 sumValues = some run ∧
      (∀ k, GoMap.index run.reduceKvs k
        = valuesOf k (allRecords envSpecExample [106] 0 2)) ∧
      (∀ k vs, (k, vs) ∈ run.reduceKvs →
        vs = valuesOf k (allRecords envSpecExample [106] 0 2)) ∧
      (∀ k vs, (k, vs) ∈ reduceCalls run.events →
        vs = valuesOf k (allRecords envSpecExample [106] 0 2)) := by
  have hopen : AllOpen envSpecExample [106] 0 2 := by
    intro i hi
    have : i = 0 ∨ i = 1 := by omega
    rcases this with rfl | rfl <;> decide
  exact ⟨hopen, doReduce_values_in_order envSpecExample [106] 0 [111] 2 sumValues hopen⟩

/-- C3. When every intermediate file opens and is read, the calls of `reduceF` are the
entries of the grouping map in some order: one call for each of its keys, none for
another key, each with the complete value sequence of its key. The events split into a part without a
call of `reduceF`, in which all `nMap` files are read to the end and closed, and a part
without any read: no call comes before every file has been read. -/
theorem doReduce_reduce_calls (env : Env) (jobName : GoString) (reduceTask : Int)
    (outFile : GoString) (nMap : Int) (reduceF : GoString → List GoString → GoString)
    (hopen : AllOpen env jobName reduceTask nMap) :
    ∃ (run : Run) (pre post : List Event),
      doReduce env jobName reduceTask outFile nMap reduceF = some run ∧
      run.events = pre ++ post ∧
      (∀ e ∈ pre, e.isReduce = false) ∧
      (pre.filter Event.isClose).length = nMap.toNat ∧
      (∀ e ∈ post, e.isRead = false) ∧
      (reduceCalls run.events).Perm run.reduceKvs ∧
      ((reduceCalls run.events).map Prod.fst).Nodup ∧
      (∀ k, k ∈ (reduceCalls run.events).map Prod.fst ↔
        ∃ r ∈ allRecords env jobName reduceTask nMap, r.Key = k) ∧
      (∀ k vs, (k, vs) ∈ reduceCalls run.events →
        vs = valuesOf k (allRecords env jobName reduceTask nMap)) := by
  obtain ⟨run, evR, evW, hrun, hkvs, _, hev, hR, hC, hW, _⟩ :=
    doReduce_allOpen_run env jobName reduceTask outFile nMap reduceF hopen
  have hcalls : reduceCalls run.events = GoMap.range env.rangeKvs run.reduceKvs := by
    rw [hev, reduceCalls_append, reduceCalls_append,
      reduceCalls_of_not_reduce evR (fun e he => (Event.not_reduce_of_isRead e (hR e he)).1),
      reduceCalls_of_not_reduce evW (fun e he => (hW e he).2), reduceCalls_map]
    simp
  have hperm : (reduceCalls run.events).Perm run.reduceKvs := by
    rw [hcalls]; exact env.rangeKvs.perm _ _
  have hnd : (GoMap.keys run.reduceKvs).Nodup := by
    rw [hkvs]; exact allRecords_nodup_keys env jobName reduceTask nMap
  have hidx : ∀ k, GoMap.index run.reduceKvs k
      = valuesOf k (allRecords env jobName reduceTask nMap) := by
    intro k
    rw [hkvs, foldl_addRecord_index]
    simp [GoMap.index]
  refine ⟨run, evR, (GoMap.range env.rangeKvs run.reduceKvs).map
      (fun e => Event.reduceF e.1 e.2) ++ evW, hrun, ?_,
    fun e he => (Event.not_reduce_of_isRead e (hR e he)).1, hC, ?_, hperm, ?_, ?_, ?_⟩
  · rw [hev, List.append_assoc]
  · intro e he
    rcases List.mem_append.1 he with he | he
    · obtain ⟨x, _, rfl⟩ := List.mem_map.1 he
      rfl
    · exact (hW e he).1
  · exact ((hperm.map Prod.fst).nodup_iff).mpr hnd
  · intro k
    rw [(hperm.map Prod.fst).mem_iff]
    have := foldl_addRecord_mem_keys (allRecords env jobName reduceTask nMap) [] k
    rw [← hkvs] at this
    simp only [GoMap.keys, List.map_nil, List.not_mem_nil, false_or] at this
    exact this
  · intro k vs h
    rw [← hidx k, GoMap.index_of_mem _ _ _ hnd (hperm.mem_iff.mp h)]

/-- C3, at the example of the spec. -/
theorem doReduce_reduce_calls_witness :
    AllOpen envSpecExample [106] 0 2 ∧
    ∃ (run : Run) (pre post : List Event),
      doReduce envSpecExample [106] 0 [111] 2 sumValues = some run ∧
      run.events = pre ++ post ∧
      (∀ e ∈ pre, e.isReduce = false) ∧
      (pre.filter Event.isClose).length = (2 : Int).toNat ∧
      (∀ e ∈ post, e.isRead = false) ∧
      (reduceCalls run.events).Perm run.reduceKvs ∧
      ((reduceCalls run.events).map Prod.fst).Nodup ∧
      (∀ k, k ∈ (reduceCalls run.events).map Prod.fst ↔
        ∃ r ∈ allRecords envSpecExample [106] 0 2, r.Key = k) ∧
      (∀ k vs, (k, vs) ∈ reduceCalls run.events →
        vs = valuesOf k (allRecords envSpecExample [106] 0 2)) := by
  have hopen : AllOpen envSpecExample [106] 0 2 := by
    intro i hi
    have : i = 0 ∨ i = 1 := by omega
    rcases this with rfl | rfl <;> decide
  exact ⟨hopen, doReduce_reduce_calls envSpecExample [106] 0 [111] 2 sumValues hopen⟩

/-- A short line that is not JSON, between two valid lines, is skipped: the grouping map
holds the two valid records and the call returns. -/
theorem doReduce_junk_line_skipped :
    (doReduce envJunk [106] 0 [111] 1 joinValues).map (fun r => (r.outcome, r.reduceKvs))
      = some (Outcome.returned, [([98], [[49]]), ([97], [[50]])]) := by
  decide

theorem paddedLine_chunk :
    (json.Marshal false { Key := [97], Value := [98] } ++ List.replicate 4073 32).length
      = defaultBufSize ∧
    (∀ c ∈ json.Marshal false { Key := [97], Value := [98] } ++ List.replicate 4073 32,
      c ≠ 10) ∧
    (json.Marshal false { Key := [97], Value := [98] } ++ List.replicate 4073 32).getLast?
      ≠ some 13 := by
  have hm : json.Marshal false { Key := [97], Value := [98] }
      = [123, 34, 75, 101, 121, 34, 58, 34, 97, 34, 44, 34, 86, 97, 108, 117, 101, 34, 58, 34,
          98, 34, 125] := by decide
  rw [hm]
  refine ⟨?_, ?_, ?_⟩
  · rw [List.length_append, List.length_replicate]
    rfl
  · intro c hc
    rcases List.mem_append.1 hc with h | h
    · intro e
      subst e
      revert h
      decide
    · rw [List.eq_of_mem_replicate h]
      decide
  · have h : List.replicate 4073 32 = List.replicate 4072 32 ++ [32] := by
      rw [show (4073 : Nat) = 4072 + 1 from rfl, List.replicate_succ']
    rw [h, ← List.append_assoc, List.getLast?_concat]
    decide

theorem filePadded_split :
    filePadded 4073
      = (json.Marshal false { Key := [97], Value := [98] } ++ List.replicate 4073 32) ++
          ([120] ++ [10]) := by
  simp only [filePadded, paddedLine, List.append_assoc]

theorem fileLines_filePadded :
    (NewReader (filePadded 4073) false).lines ((filePadded 4073).length + 1)
      = [(json.Marshal false { Key := [97], Value := [98] } ++ List.replicate 4073 32, true),
          ([120], false)] := by
  have hlen : (filePadded 4073).length + 1 = 4096 + 3 := by
    rw [filePadded_split, List.length_append, paddedLine_chunk.1]
    rfl
  rw [hlen]
  unfold NewReader
  rw [filePadded_split]
  exact fileLines_two_pieces _ _ paddedLine_chunk.1 paddedLine_chunk.2.1 paddedLine_chunk.2.2
    (by decide) (by decide) (by decide) 4096

theorem paddedLine_no_newline : ∀ c ∈ paddedLine 4073, c ≠ 10 := by
  intro c hc
  unfold paddedLine at hc
  rw [← List.append_assoc] at hc
  rcases List.mem_append.1 hc with h | h
  · exact paddedLine_chunk.2.1 c h
  · rw [List.mem_singleton.1 h]
    decide

/-- C5, on the code: a file whose one line is the record `("a","b")` followed by 4073
spaces and the letter `x`. The line, 4097 bytes long, is not the encoding of a record:
`json.Unmarshal` rejects it, and the file without its undecodable lines is empty.
`ReadLine` delivers the line in two pieces, the first, a full buffer, with
`isPrefix = true`; `doReduce` drops that flag and decodes each piece by itself. The
first piece decodes to `("a","b")`, only the second is rejected: the value `b` is
grouped under the key `a`, handed to `reduceF` and written to the output file, while
the run on the file without the undecodable line groups and writes nothing. -/
theorem doReduce_long_undecodable_line_grouped :
    textLines (filePadded 4073) = [paddedLine 4073] ∧
    (paddedLine 4073).length = 4097 ∧
    json.Unmarshal (paddedLine 4073) = none ∧
    dropUndecodable (filePadded 4073) = [] ∧
    doReduce (envFile (filePadded 4073)) [106] 0 [111] 1 joinValues = some
      { events := [Event.osOpen (exampleName [106] 0 0) true,
          Event.readLine
            (json.Marshal false { Key := [97], Value := [98] } ++ List.replicate 4073 32) true,
          Event.readLine [120] false,
          Event.logCannotUnmarshal [120],
          Event.fileClose (exampleName [106] 0 0) true,
          Event.reduceF [97] [[98]],
          Event.osCreate [111] true,
          Event.fprintln (json.Marshal false { Key := [97], Value := [98] }) Err.nil,
          Event.flush Err.nil,
          Event.outClose Err.nil],
        outcome := Outcome.returned,
        reduceKvs := [([97], [[98]])],
        result := [([97], [98])],
        out := some { data := outputText false [{ Key := [97], Value := [98] }],
                      room := none, closeFails := false } } ∧
    doReduce (envFile (dropUndecodable (filePadded 4073))) [106] 0 [111] 1 joinValues = some
      { events := [Event.osOpen (exampleName [106] 0 0) true,
          Event.fileClose (exampleName [106] 0 0) true,
          Event.osCreate [111] true,
          Event.flush Err.nil,
          Event.outClose Err.nil],
        outcome := Outcome.returned,
        reduceKvs := [],
        result := [],
        out := some { data := [], room := none, closeFails := false } } := by
  have hpad := json.Unmarshal_Marshal_padded false { Key := [97], Value := [98] }
    (by decide) (by decide) 4073
  have htl : textLines (filePadded 4073) = [paddedLine 4073] :=
    textLines_single _ paddedLine_no_newline
  have hdrop : dropUndecodable (filePadded 4073) = [] := by
    unfold dropUndecodable
    rw [htl]
    simp only [List.filter_cons, List.filter_nil]
    rw [show json.Unmarshal (paddedLine 4073) = none from hpad.2]
    rfl
  refine ⟨htl, ?_, hpad.2, hdrop, ?_, ?_⟩
  · unfold paddedLine
    rw [← List.append_assoc, List.length_append, paddedLine_chunk.1]
    rfl
  · have hu1 := hpad.1
    have hu2 : json.Unmarshal [120] = none := by decide
    have hml : mapLoop (envFile (filePadded 4073)) [106] 0 1 0 { reduceKvs := [], events := [] }
        = LoopEnd.done
          { reduceKvs := [([97], [[98]])],
            events := [Event.osOpen (exampleName [106] 0 0) true,
              Event.readLine
                (json.Marshal false { Key := [97], Value := [98] } ++ List.replicate 4073 32)
                true,
              Event.readLine [120] false,
              Event.logCannotUnmarshal [120],
              Event.fileClose (exampleName [106] 0 0) true] } := by
      have hopen : (envFile (filePadded 4073)).openFile
          ((envFile (filePadded 4073)).reduceName [106] 0 0) = some (filePadded 4073) := rfl
      have hread : (envFile (filePadded 4073)).readFails
          ((envFile (filePadded 4073)).reduceName [106] 0 0) = false := rfl
      have hname : (envFile (filePadded 4073)).reduceName [106] 0 0 = exampleName [106] 0 0 :=
        rfl
      have hclose : (envFile (filePadded 4073)).closeFails (exampleName [106] 0 0) = false :=
        rfl
      unfold mapLoop
      simp only [hopen, hread]
      rw [lineLoop_eq _ _ _ rfl (by simp [NewReader]), fileLines_filePadded]
      simp only [hname, List.foldl_cons, List.foldl_nil, lineStep, hu1, hu2, St.emit, hclose,
        mapLoop, List.nil_append, List.cons_append, Bool.not_false, GoMap.assign, GoMap.index,
        List.find?_nil, List.any_nil, Bool.false_eq_true, if_false]
    have hn : (1 : Int).toNat = 1 := rfl
    unfold doReduce
    simp only [hn, hml]
    rfl
  · rw [hdrop]
    decide

/-! ## The output file (C1) -/

/-- C1. If every intermediate file opens and is read to its end, the output file is
created and no write and no flush reports an error, `doReduce` returns and the output
file holds, one per line, the marshalled records `(k, reduceF(k, vals(k)))` for the keys `k` of a list `keys` that
has no duplicates and holds exactly the keys of the successfully decoded records;
`vals(k)` is the full value sequence of `k`. The order of `keys` is the order in which
the second `range` loop visits the map. -/
theorem doReduce_output (env : Env) (jobName : GoString) (reduceTask : Int)
    (outFile : GoString) (nMap : Int) (reduceF : GoString → List GoString → GoString)
    (hopen : AllOpen env jobName reduceTask nMap)
    (hcreate : (env.create outFile).isSome = true)
    (hwrite : ∀ run, doReduce env jobName reduceTask outFile nMap reduceF = some run →
      ∀ e ∈ run.events, e.writeErr = Err.nil) :
    ∃ (run : Run) (out : OsFile) (keys : List GoString),
      doReduce env jobName reduceTask outFile nMap reduceF = some run ∧
      run.outcome = Outcome.returned ∧
      run.out = some out ∧
      keys.Nodup ∧
      (∀ k, k ∈ keys ↔ ∃ r ∈ allRecords env jobName reduceTask nMap, r.Key = k) ∧
      out.data = outputText env.jsonRaw (keys.map (fun k =>
        { Key := k, Value := reduceF k (valuesOf k (allRecords env jobName reduceTask nMap)) })) := by
  obtain ⟨evR, hR, _, hrun⟩ :=
    doReduce_allOpen env jobName reduceTask outFile nMap reduceF hopen
  cases hc : env.create outFile with
  | none => rw [hc] at hcreate; simp at hcreate
  | some d =>
    obtain ⟨room, cf⟩ := d
    rw [hc] at hrun
    simp only at hrun
    have hw := hwrite _ hrun
    simp only at hw
    obtain ⟨evs, h1, _, h3⟩ := writeLoop_events env.jsonRaw
      (GoMap.range env.rangeResult
        ((GoMap.range env.rangeKvs
          ((allRecords env jobName reduceTask nMap).foldl addRecord [])).map
          (fun e => (e.1, reduceF e.1 e.2))))
      (NewWriter { data := [], room := room, closeFails := cf })
      (evR ++
        (GoMap.range env.rangeKvs
          ((allRecords env jobName reduceTask nMap).foldl addRecord [])).map
          (fun e => Event.reduceF e.1 e.2) ++
        [Event.osCreate outFile true])
    generalize hwl : writeLoop _ _ _ _ = wl at hrun h1 h3 hw
    -- the entries in the order of the second loop
    generalize hes2 : GoMap.range env.rangeResult
        ((GoMap.range env.rangeKvs
          ((allRecords env jobName reduceTask nMap).foldl addRecord [])).map
          (fun e => (e.1, reduceF e.1 e.2))) = es2 at h3
    have hperm2 : es2.Perm ((GoMap.range env.rangeKvs
          ((allRecords env jobName reduceTask nMap).foldl addRecord [])).map
          (fun e => (e.1, reduceF e.1 e.2))) := by
      rw [← hes2]; exact env.rangeResult.perm _ _
    have hperm1 := env.rangeKvs.perm _
      ((allRecords env jobName reduceTask nMap).foldl addRecord [])
    have hnd := allRecords_nodup_keys env jobName reduceTask nMap
    have hkeys : (es2.map Prod.fst).Perm
        (GoMap.keys ((allRecords env jobName reduceTask nMap).foldl addRecord [])) := by
      refine (hperm2.map Prod.fst).trans ?_
      rw [List.map_map]
      exact hperm1.map Prod.fst
    -- no write failed, so the writer holds the whole text
    have hevs : ∀ e ∈ evs, e.writeErr = Err.nil := by
      intro e he
      apply hw
      rw [h1]
      simp [he]
    obtain ⟨h4, h5⟩ := h3 hevs rfl
    have hflush : wl.1.Flush.2 = Err.nil := by
      have := hw (Event.flush wl.1.Flush.2) (by simp)
      simpa [Event.writeErr] using this
    rw [Writer.Flush_err] at hflush
    obtain ⟨_, _, h7⟩ := Writer.Flush_nil _ hflush
    refine ⟨_, wl.1.Flush.1.wr, es2.map Prod.fst, hrun, rfl, rfl,
      (hkeys.nodup_iff).mpr hnd, ?_, ?_⟩
    · intro k
      rw [hkeys.mem_iff]
      have := foldl_addRecord_mem_keys (allRecords env jobName reduceTask nMap) [] k
      simp only [GoMap.keys, List.map_nil, List.not_mem_nil, false_or] at this
      exact this
    · rw [h7, h5]
      simp only [NewWriter, List.nil_append]
      congr 1
      rw [List.map_map]
      apply List.map_congr_left
      intro e he
      obtain ⟨x, hx, hxe⟩ := List.mem_map.1 (hperm2.mem_iff.mp he)
      have hx2 := hperm1.mem_iff.mp hx
      have hidx := GoMap.index_of_mem _ x.1 x.2 hnd hx2
      rw [foldl_addRecord_index] at hidx
      simp only [GoMap.index, List.nil_append] at hidx
      subst hxe
      simp only [Function.comp, hidx]

/-- C1, at the example of the spec: two files with `("a","1")`, `("b","2")` and
`("a","3")`, reduce function sum-as-string. -/
theorem doReduce_output_witness :
    AllOpen envSpecExample [106] 0 2 ∧
    (envSpecExample.create [111]).isSome = true ∧
    (∀ run, doReduce envSpecExample [106] 0 [111] 2 sumValues = some run →
      ∀ e ∈ run.events, e.writeErr = Err.nil) ∧
    ∃ (run : Run) (out : OsFile) (keys : List GoString),
      doReduce envSpecExample [106] 0 [111] 2 sumValues = some run ∧
      run.outcome = Outcome.returned ∧
      run.out = some out ∧
      keys.Nodup ∧
      (∀ k, k ∈ keys ↔ ∃ r ∈ allRecords envSpecExample [106] 0 2, r.Key = k) ∧
      out.data = outputText false (keys.map (fun k =>
        { Key := k, Value := sumValues k (valuesOf k (allRecords envSpecExample [106] 0 2)) })) := by
  have hopen : AllOpen envSpecExample [106] 0 2 := by
    intro i hi
    have : i = 0 ∨ i = 1 := by omega
    rcases this with rfl | rfl <;> decide
  have hwrite : ∀ run, doReduce envSpecExample [106] 0 [111] 2 sumValues = some run →
      ∀ e ∈ run.events, e.writeErr = Err.nil := by
    intro run h
    have hd : (doReduce envSpecExample [106] 0 [111] 2 sumValues).map
        (fun r => decide (∀ e ∈ r.events, e.writeErr = Err.nil)) = some true := by decide
    rw [h] at hd
    simpa using hd
  exact ⟨hopen, rfl, hwrite,
    doReduce_output envSpecExample [106] 0 [111] 2 sumValues hopen rfl hwrite⟩

/-- The example of the spec, evaluated: the output file holds exactly the records
`("b","2")` and `("a","4")` (here in this order: the second loop visits in reverse). -/
theorem doReduce_spec_example :
    (doReduce envSpecExample [106] 0 [111] 2 sumValues).map (fun r => r.outcome)
      = some Outcome.returned ∧
    (doReduce envSpecExample [106] 0 [111] 2 sumValues).map (fun r => reduceCalls r.events)
      = some [([97], [[49], [51]]), ([98], [[50]])] ∧
    (doReduce envSpecExample [106] 0 [111] 2 sumValues).map
        (fun r => r.out.map (fun o => o.data))
      = some (some
          (outputText false [{ Key := [98], Value := [50] }, { Key := [97], Value := [52] }])) := by
  decide

/-! ## The encoding of the output (C8) -/

/-- C8, refuted as stated: a result with a byte that is not valid UTF-8 does not come
back. Whichever way the encoder writes U+FFFD, `json.Unmarshal` reads the marshalled
record `("k", 0xFF)` as `("k", U+FFFD)`, and the lines of the output file of a run
whose reduce function returns the byte `0xFF` decode to records with the value
U+FFFD. -/
theorem marshal_invalid_utf8_not_recovered :
    utf8.ValidString [255] = false ∧
    (∀ raw : Bool,
      json.Unmarshal (json.Marshal raw { Key := [107], Value := [255] })
        = some { Key := [107], Value := [239, 191, 189] } ∧
      json.Unmarshal (json.Marshal raw { Key := [107], Value := [255] })
        ≠ some { Key := [107], Value := [255] }) ∧
    (∀ raw : Bool,
      (doReduce { envBA with jsonRaw := raw } [106] 0 [111] 1 (fun _ _ => [255])).map
          (fun r => (r.result, (printedTexts r.events).map json.Unmarshal,
            r.out.map (fun o => decodeLines (fileLines o.data))))
        = some ([([98], [255]), ([97], [255])],
            [some { Key := [98], Value := [239, 191, 189] },
              some { Key := [97], Value := [239, 191, 189] }],
            some [{ Key := [98], Value := [239, 191, 189] },
              { Key := [97], Value := [239, 191, 189] }])) := by
  refine ⟨by decide, ?_, ?_⟩
  · intro raw
    cases raw <;> decide
  · intro raw
    cases raw <;> decide

/-- C8, amended. When every intermediate file is read and the output file is created,
`doReduce` returns and the texts it hands to `fmt.Fprintln`, which adds the newline,
are `json.Marshal` of the entries of `result`, one text for each entry. For every
record, of arbitrary content, the text `json.Marshal` gives holds no byte below 32, so
it is a single line. If key and value of the record are valid UTF-8, `json.Unmarshal`,
the decoder `doReduce` applies to intermediate lines, decodes that text to exactly the
record. -/
theorem doReduce_output_roundtrip (env : Env) (jobName : GoString) (reduceTask : Int)
    (outFile : GoString) (nMap : Int) (reduceF : GoString → List GoString → GoString)
    (kv : KeyValue) :
    (AllOpen env jobName reduceTask nMap → (env.create outFile).isSome = true →
      ∃ run, doReduce env jobName reduceTask outFile nMap reduceF = some run ∧
        run.outcome = Outcome.returned ∧
        printedTexts run.events = (GoMap.range env.rangeResult run.result).map
          (fun e => json.Marshal env.jsonRaw { Key := e.1, Value := e.2 })) ∧
    (∀ c ∈ json.Marshal env.jsonRaw kv, 32 ≤ c) ∧
    (utf8.ValidString kv.Key = true → utf8.ValidString kv.Value = true →
      json.Unmarshal (json.Marshal env.jsonRaw kv) = some kv) :=
  ⟨doReduce_printed env jobName reduceTask outFile nMap reduceF,
    json.Marshal_ge env.jsonRaw kv, json.Unmarshal_Marshal env.jsonRaw kv⟩

/-- C8, amended, at a concrete input: the run on `envBA`, and a record whose key is `é"`
followed by a newline and a tab and whose value is the euro sign, a backslash and
U+2028. -/
theorem doReduce_output_roundtrip_witness :
    AllOpen envBA [106] 0 1 ∧ (envBA.create [111]).isSome = true ∧
    utf8.ValidString [195, 169, 34, 10, 9] = true ∧
    utf8.ValidString [226, 130, 172, 92, 226, 128, 168] = true ∧
    (∃ run, doReduce envBA [106] 0 [111] 1 joinValues = some run ∧
      run.outcome = Outcome.returned ∧
      printedTexts run.events = (GoMap.range envBA.rangeResult run.result).map
        (fun e => json.Marshal false { Key := e.1, Value := e.2 })) ∧
    json.Unmarshal (json.Marshal false
        { Key := [195, 169, 34, 10, 9], Value := [226, 130, 172, 92, 226, 128, 168] })
      = some { Key := [195, 169, 34, 10, 9], Value := [226, 130, 172, 92, 226, 128, 168] } :=
  ⟨fun _ _ => ⟨rfl, rfl⟩, rfl, by decide, by decide,
    (doReduce_output_roundtrip envBA [106] 0 [111] 1 joinValues
      { Key := [195, 169, 34, 10, 9], Value := [226, 130, 172, 92, 226, 128, 168] }).1
      (fun _ _ => ⟨rfl, rfl⟩) rfl,
    (doReduce_output_roundtrip envBA [106] 0 [111] 1 joinValues
      { Key := [195, 169, 34, 10, 9], Value := [226, 130, 172, 92, 226, 128, 168] }).2.2
      (by decide) (by decide)⟩

/-! ## Lines longer than the buffer (C10) -/

theorem fileLong_split :
    fileLong 4090 = (longHead ++ List.replicate 4076 97) ++
      ((List.replicate 14 97 ++ [34, 125]) ++ [10]) := by
  have h : List.replicate 4090 97 = List.replicate 4076 97 ++ List.replicate 14 97 := by
    rw [← List.replicate_add]
  unfold fileLong
  rw [json.Marshal_longRecord false, h]
  simp only [List.append_assoc]

theorem longHead_chunk :
    (longHead ++ List.replicate 4076 97).length = defaultBufSize ∧
    (∀ c ∈ longHead ++ List.replicate 4076 97, c ≠ 10) ∧
    (longHead ++ List.replicate 4076 97).getLast? ≠ some 13 := by
  refine ⟨?_, ?_, ?_⟩
  · rw [List.length_append, List.length_replicate]
    rfl
  · intro c hc
    rcases List.mem_append.1 hc with h | h
    · intro e
      subst e
      revert h
      decide
    · rw [List.eq_of_mem_replicate h]
      decide
  · have h : List.replicate 4076 97 = List.replicate 4075 97 ++ [97] := by
      rw [show (4076 : Nat) = 4075 + 1 from rfl, List.replicate_succ']
    rw [h, ← List.append_assoc, List.getLast?_concat]
    decide

theorem fileLines_fileLong :
    (NewReader (fileLong 4090) false).lines ((fileLong 4090).length + 1)
      = [(longHead ++ List.replicate 4076 97, true),
          (List.replicate 14 97 ++ [34, 125], false)] := by
  have hlen : (fileLong 4090).length + 1 = 4111 + 3 := by
    rw [fileLong_split]
    simp only [List.length_append, List.length_replicate, List.length_cons, List.length_nil,
      longHead]
  rw [hlen]
  unfold NewReader
  rw [fileLong_split]
  exact fileLines_two_pieces _ _ longHead_chunk.1 longHead_chunk.2.1 longHead_chunk.2.2
    (by decide) (by decide) (by decide) 4111

/-- C10, on the code: a file with the single record `("k", a…a)` whose line, a valid
encoding, is 4112 bytes long. `ReadLine` delivers the line in two pieces, the first with
`isPrefix = true`; `doReduce` drops that flag and hands each piece to `json.Unmarshal`,
which rejects both. No value is added for key `k`, two decode errors are logged, and
the output file is empty. -/
theorem doReduce_long_line_dropped :
    (json.Marshal false (longRecord 4090)).length = 4112 ∧
    json.Unmarshal (json.Marshal false (longRecord 4090)) = some (longRecord 4090) ∧
    doReduce (envLong 4090) [106] 0 [111] 1 joinValues = some
      { events := [Event.osOpen (exampleName [106] 0 0) true,
          Event.readLine (longHead ++ List.replicate 4076 97) true,
          Event.logCannotUnmarshal (longHead ++ List.replicate 4076 97),
          Event.readLine (List.replicate 14 97 ++ [34, 125]) false,
          Event.logCannotUnmarshal (List.replicate 14 97 ++ [34, 125]),
          Event.fileClose (exampleName [106] 0 0) true,
          Event.osCreate [111] true,
          Event.flush Err.nil,
          Event.outClose Err.nil],
        outcome := Outcome.returned,
        reduceKvs := [],
        result := [],
        out := some { data := [], room := none, closeFails := false } } := by
  refine ⟨?_, ?_, ?_⟩
  · rw [json.Marshal_longRecord false]
    simp only [List.length_append, List.length_replicate, List.length_cons, List.length_nil,
      longHead]
  · apply json.Unmarshal_Marshal
    · decide
    · exact utf8.validAux_replicate 4090 _
        (by show 4090 ≤ (List.replicate 4090 97).length; rw [List.length_replicate])
  · have hu1 := json.Unmarshal_longHead 4076
    have hu2 : json.Unmarshal (List.replicate 14 97 ++ [34, 125]) = none := by decide
    have hml : mapLoop (envLong 4090) [106] 0 1 0 { reduceKvs := [], events := [] }
        = LoopEnd.done
          { reduceKvs := [],
            events := [Event.osOpen (exampleName [106] 0 0) true,
              Event.readLine (longHead ++ List.replicate 4076 97) true,
              Event.logCannotUnmarshal (longHead ++ List.replicate 4076 97),
              Event.readLine (List.replicate 14 97 ++ [34, 125]) false,
              Event.logCannotUnmarshal (List.replicate 14 97 ++ [34, 125]),
              Event.fileClose (exampleName [106] 0 0) true] } := by
      have hopen : (envLong 4090).openFile ((envLong 4090).reduceName [106] 0 0)
          = some (fileLong 4090) := rfl
      have hname : (envLong 4090).reduceName [106] 0 0 = exampleName [106] 0 0 := rfl
      have hclose : (envLong 4090).closeFails (exampleName [106] 0 0) = false := rfl
      have hread : (envLong 4090).readFails ((envLong 4090).reduceName [106] 0 0) = false :=
        rfl
      unfold mapLoop
      simp only [hopen, hread]
      rw [lineLoop_eq _ _ _ rfl (by simp [NewReader]), fileLines_fileLong]
      simp only [hname, List.foldl_cons, List.foldl_nil, lineStep, hu1, hu2, St.emit, hclose,
        mapLoop, List.nil_append, List.cons_append, Bool.not_false]
    have hn : (1 : Int).toNat = 1 := rfl
    unfold doReduce
    simp only [hn, hml]
    rfl

end MapReduce
